import Mathlib

/-!
Verification of the tiered fetch pipeline of `deathrowScraper`
(`src/app.py` and `src/death.py`), as described by its specification.

Strings are modelled as `List Char`; Python's ASCII-case-insensitive
regular-expression matching and `str.lower()` are modelled with an ASCII
case-folding function.  All regular expressions in the source are anchored
prefix rewrites, so each one is embedded as a structural function on
character lists.
-/

namespace DeathRow

/-! ## Character classes and Python string primitives -/

/-- ASCII letter, the class `[A-Za-z]` of the source's scheme regex. -/
def isAsciiAlpha (c : Char) : Bool :=
  (65 ≤ c.toNat && c.toNat ≤ 90) || (97 ≤ c.toNat && c.toNat ≤ 122)

/-- ASCII digit `[0-9]`. -/
def isAsciiDigit (c : Char) : Bool := 48 ≤ c.toNat && c.toNat ≤ 57

/-- The class `[A-Za-z0-9+.\-]` of scheme characters used by
`normalize_url`'s scheme-detection regex (both `app.py` and `death.py`). -/
def isSchemeChar (c : Char) : Bool :=
  isAsciiAlpha c || isAsciiDigit c || c = '+' || c = '.' || c = '-'

/-- Whitespace stripped by Python `str.strip()` (ASCII part). -/
def pySpace (c : Char) : Bool :=
  c = ' ' || c = '\t' || c = '\n' || c = '\r' || c.toNat = 11 || c.toNat = 12

/-- Python `str.strip()`. -/
def pyStrip (s : List Char) : List Char :=
  ((s.dropWhile pySpace).reverse.dropWhile pySpace).reverse

/-- ASCII lower-casing of one character, modelling both `str.lower()` and
the effect of `re.IGNORECASE` on the (all-ASCII) patterns of the source. -/
def lowChar (c : Char) : Char :=
  if 65 ≤ c.toNat && c.toNat ≤ 90 then Char.ofNat (c.toNat + 32) else c

/-- Case-insensitive anchored prefix match: does `s` start with the
(lower-case) pattern `pat`, up to ASCII case? -/
def ciPre : List Char → List Char → Bool
  | [], _ => true
  | _ :: _, [] => false
  | p :: ps, c :: cs => (lowChar c == p) && ciPre ps cs

/-! ## URL Normalizer (`normalize_url`, identical in `app.py` and `death.py`)

Each of the source's anchored `re.sub` rewrites becomes one function. -/

/-- Literal `https://`, the string prepended by several rules. -/
def litHttps : List Char := ['h', 't', 't', 'p', 's', ':', '/', '/']

/-- Pattern `https:/` (for the missing-slash repair). -/
def patHttpsC : List Char := ['h', 't', 't', 'p', 's', ':', '/']

/-- Pattern `http:/`. -/
def patHttpC : List Char := ['h', 't', 't', 'p', ':', '/']

/-- Pattern `https://`. -/
def patHttpsF : List Char := ['h', 't', 't', 'p', 's', ':', '/', '/']

/-- Pattern `http://`. -/
def patHttpF : List Char := ['h', 't', 't', 'p', ':', '/', '/']

/-- Pattern `https//` (missing colon). -/
def patHttpsN : List Char := ['h', 't', 't', 'p', 's', '/', '/']

/-- Pattern `http//`. -/
def patHttpN : List Char := ['h', 't', 't', 'p', '/', '/']

/-- Pattern `wwwhttps://`. -/
def patWwwHttps : List Char := ['w', 'w', 'w', 'h', 't', 't', 'p', 's', ':', '/', '/']

/-- Pattern `wwwhttp://`. -/
def patWwwHttp : List Char := ['w', 'w', 'w', 'h', 't', 't', 'p', ':', '/', '/']

/-- Pattern `www.`. -/
def patWwwDot : List Char := ['w', 'w', 'w', '.']

/-- Models `re.sub(r'^(https?):/([^/])', r'\1://\2', u, flags=re.IGNORECASE)`:
repair a scheme missing one slash.  The character class `[^/]` must consume
a character, so nothing happens when the string ends right after `:/`. -/
def fixOneSlash (s : List Char) : List Char :=
  if ciPre patHttpsC s then
    match s.drop 7 with
    | c :: _ => if c = '/' then s else s.take 7 ++ '/' :: s.drop 7
    | [] => s
  else if ciPre patHttpC s then
    match s.drop 6 with
    | c :: _ => if c = '/' then s else s.take 6 ++ '/' :: s.drop 6
    | [] => s
  else s

/-- Models `re.sub(r'^(https?):///*', r'\1://', u, flags=re.IGNORECASE)` and the
final `re.sub(r'^(https?://)/*', r'\1', u, flags=re.IGNORECASE)`: both
collapse every slash that immediately follows `http://` / `https://`. -/
def collapseSlashes (s : List Char) : List Char :=
  if ciPre patHttpsF s then s.take 8 ++ (s.drop 8).dropWhile (fun c => c = '/')
  else if ciPre patHttpF s then s.take 7 ++ (s.drop 7).dropWhile (fun c => c = '/')
  else s

/-- Models `re.sub(r'^(https?)(//)', r'\1://', u, flags=re.IGNORECASE)`:
insert the missing colon of `https//x`. -/
def fixMissingColon (s : List Char) : List Char :=
  if ciPre patHttpsN s then s.take 5 ++ ':' :: s.drop 5
  else if ciPre patHttpN s then s.take 4 ++ ':' :: s.drop 4
  else s

/-- Models `re.sub(r'^wwwhttps?://', 'https://', u, flags=re.IGNORECASE)`:
strip an accidentally prefixed `www` before a scheme. -/
def fixWwwScheme (s : List Char) : List Char :=
  if ciPre patWwwHttps s then litHttps ++ s.drop 11
  else if ciPre patWwwHttp s then litHttps ++ s.drop 10
  else s

/-- Models `if re.match(r'^www\.', u, flags=re.IGNORECASE): u = 'https://' + u`. -/
def addWwwScheme (s : List Char) : List Char :=
  if ciPre patWwwDot s then litHttps ++ s else s

/-- Models `re.match(r'^[A-Za-z][A-Za-z0-9+.\-]*://', u)`: the string starts with
a well-formed scheme.  Since `:` is not a scheme character, the regex
matches exactly when the maximal scheme-character run is followed by `://`. -/
def hasScheme (s : List Char) : Bool :=
  match s with
  | [] => false
  | a :: _ => isAsciiAlpha a && [':', '/', '/'].isPrefixOf (s.dropWhile isSchemeChar)

/-- Models `if not re.match(scheme): u = 'https://' + u`. -/
def addScheme (s : List Char) : List Char :=
  if hasScheme s then s else litHttps ++ s

/-- Models `s.map (backslash ↦ slash)`, the `u.replace("\\", "/")` step. -/
def deslash (s : List Char) : List Char :=
  s.map (fun c => if c = '\\' then '/' else c)

/-- The body of `normalize_url` (`app.py` lines 227-241, `death.py` lines
190-203; the two copies are semantically identical) on character lists. -/
def normChars (s : List Char) : List Char :=
  if s = [] then s
  else
    collapseSlashes <| addScheme <| addWwwScheme <| fixWwwScheme <|
      fixMissingColon <| collapseSlashes <| fixOneSlash <| deslash (pyStrip s)

/-- Wrapper: `normalize_url` on Lean strings. -/
def normalize_url (u : String) : String := ⟨normChars u.data⟩

/-! ## Character-level lemmas -/

theorem char_eq_of_toNat_eq {a b : Char} (h : a.toNat = b.toNat) : a = b := by
  apply Char.eq_of_val_eq
  apply UInt32.eq_of_toBitVec_eq
  exact BitVec.eq_of_toNat_eq h

theorem toNat_charOfNat {n : Nat} (h : n.isValidChar) : (Char.ofNat n).toNat = n := by
  simp [Char.ofNat, h, Char.ofNatAux, Char.toNat, UInt32.toNat, UInt32.ofNatCore]

theorem char_eq_iff_toNat {a b : Char} : a = b ↔ a.toNat = b.toNat :=
  ⟨fun h => h ▸ rfl, char_eq_of_toNat_eq⟩

theorem lowChar_toNat (c : Char) :
    (lowChar c).toNat =
      if 65 ≤ c.toNat && c.toNat ≤ 90 then c.toNat + 32 else c.toNat := by
  by_cases hb : (65 ≤ c.toNat && c.toNat ≤ 90) = true
  · rw [if_pos hb]
    unfold lowChar
    rw [if_pos hb]
    apply toNat_charOfNat
    simp only [Bool.and_eq_true, decide_eq_true_eq] at hb
    left
    omega
  · rw [if_neg hb]
    unfold lowChar
    rw [if_neg hb]

/-- The `toNat` of `lowChar c`, with the case split resolved into bounds. -/
theorem lowChar_toNat_cases (c : Char) :
    (65 ≤ c.toNat ∧ c.toNat ≤ 90 ∧ (lowChar c).toNat = c.toNat + 32) ∨
      ((c.toNat < 65 ∨ 90 < c.toNat) ∧ (lowChar c).toNat = c.toNat) := by
  have ht := lowChar_toNat c
  by_cases hb : (65 ≤ c.toNat && c.toNat ≤ 90) = true
  · rw [if_pos hb] at ht
    simp only [Bool.and_eq_true, decide_eq_true_eq] at hb
    exact Or.inl ⟨hb.1, hb.2, ht⟩
  · rw [if_neg hb] at ht
    refine Or.inr ⟨?_, ht⟩
    by_contra hcon
    push_neg at hcon
    exact hb (by simp [hcon.1, hcon.2])

/-- For a target character below `A` (such as `:` or `/`), case folding the
left side of an equation changes nothing. -/
theorem lowChar_eq_low {c d : Char} (hd : d.toNat < 65) : lowChar c = d ↔ c = d := by
  rw [char_eq_iff_toNat, char_eq_iff_toNat]
  rcases lowChar_toNat_cases c with ⟨h1, h2, h3⟩ | ⟨h1, h3⟩
  · rw [h3]
    omega
  · rw [h3]

theorem lowChar_colon_iff (c : Char) : lowChar c = ':' ↔ c = ':' :=
  lowChar_eq_low (by decide)

theorem lowChar_slash_iff (c : Char) : lowChar c = '/' ↔ c = '/' :=
  lowChar_eq_low (by decide)

/-- Lower-casing preserves membership in the scheme-character class. -/
theorem isSchemeChar_lowChar {c : Char} (h : isSchemeChar c = true) :
    isSchemeChar (lowChar c) = true := by
  have h43 : ('+' : Char).toNat = 43 := by decide
  have h46 : ('.' : Char).toNat = 46 := by decide
  have h45 : ('-' : Char).toNat = 45 := by decide
  simp only [isSchemeChar, isAsciiAlpha, isAsciiDigit, char_eq_iff_toNat, h43, h46, h45,
    Bool.or_eq_true, Bool.and_eq_true, decide_eq_true_eq] at h ⊢
  rcases lowChar_toNat_cases c with ⟨h1, h2, h3⟩ | ⟨h1, h3⟩ <;> rw [h3] <;> omega

theorem isSchemeChar_ne_colon {c : Char} (h : isSchemeChar c = true) :
    lowChar c ≠ ':' := by
  intro hc
  have h2 := isSchemeChar_lowChar h
  rw [hc] at h2
  exact absurd h2 (by decide)

theorem isSchemeChar_ne_slash {c : Char} (h : isSchemeChar c = true) :
    lowChar c ≠ '/' := by
  intro hc
  have h2 := isSchemeChar_lowChar h
  rw [hc] at h2
  exact absurd h2 (by decide)

theorem isAsciiAlpha_isSchemeChar {c : Char} (h : isAsciiAlpha c = true) :
    isSchemeChar c = true := by
  simp [isSchemeChar, h]

theorem isAsciiAlpha_not_pySpace {c : Char} (h : isAsciiAlpha c = true) :
    pySpace c = false := by
  have h32 : (' ' : Char).toNat = 32 := by decide
  have h9 : ('\t' : Char).toNat = 9 := by decide
  have h10 : ('\n' : Char).toNat = 10 := by decide
  have h13 : ('\r' : Char).toNat = 13 := by decide
  simp only [isAsciiAlpha, Bool.or_eq_true, Bool.and_eq_true, decide_eq_true_eq] at h
  simp only [pySpace, char_eq_iff_toNat, h32, h9, h10, h13, Bool.or_eq_false_iff,
    decide_eq_false_iff_not]
  omega

/-! ## Alignment of case-insensitive prefix matches with a scheme run

A normalized string has the form `sch ++ ':' :: '/' :: '/' :: rest` with
`sch` a run of scheme characters.  Since no scheme character case-folds to
`:` and `:` itself only matches `:`, a pattern such as `https://` can match
such a string only by aligning its own colon with the string's colon. -/

theorem ciPre_align (patA patB sch rest : List Char)
    (hA : ∀ p ∈ patA, p ≠ ':') (hs : ∀ c ∈ sch, isSchemeChar c = true) :
    ciPre (patA ++ ':' :: patB) (sch ++ ':' :: rest) = true ↔
      sch.map lowChar = patA ∧ ciPre patB rest = true := by
  induction patA generalizing sch with
  | nil =>
    cases sch with
    | nil =>
      simp [ciPre, lowChar_colon_iff]
    | cons c cs =>
      simp only [List.nil_append, List.map_cons, ciPre, List.cons_append]
      have hne : (lowChar c == ':') = false := by
        simp only [beq_eq_false_iff_ne, ne_eq]
        exact isSchemeChar_ne_colon (hs c (List.mem_cons_self c cs))
      simp [hne]
  | cons p ps ih =>
    cases sch with
    | nil =>
      have hp : p ≠ ':' := hA p (List.mem_cons_self p ps)
      simp only [List.nil_append, List.cons_append, ciPre, List.map_nil]
      have hne : (lowChar ':' == p) = false := by
        simp only [beq_eq_false_iff_ne, ne_eq]
        intro hcon
        apply hp
        rw [← hcon]
        decide
      simp [hne]
    | cons c cs =>
      simp only [List.cons_append, ciPre, List.append_eq, List.map_cons, Bool.and_eq_true,
        beq_iff_eq]
      rw [ih cs (fun q hq => hA q (List.mem_cons_of_mem p hq))
          (fun d hd => hs d (List.mem_cons_of_mem c hd))]
      constructor
      · rintro ⟨h1, h2, h3⟩
        exact ⟨by rw [h1, h2], h3⟩
      · rintro ⟨h1, h2⟩
        rw [List.cons_eq_cons] at h1
        exact ⟨h1.1, h1.2, h2⟩

/-- A pattern without a colon matches a scheme-shaped string exactly when it
matches within the scheme run. -/
theorem ciPre_noColon (pat sch rest : List Char)
    (hA : ∀ p ∈ pat, p ≠ ':') (hs : ∀ c ∈ sch, isSchemeChar c = true) :
    ciPre pat (sch ++ ':' :: rest) = ciPre pat sch := by
  induction pat generalizing sch with
  | nil => simp [ciPre]
  | cons p ps ih =>
    cases sch with
    | nil =>
      have hp : p ≠ ':' := hA p (List.mem_cons_self p ps)
      simp only [List.nil_append, ciPre]
      have hne : (lowChar ':' == p) = false := by
        simp only [beq_eq_false_iff_ne, ne_eq]
        intro hcon
        apply hp
        rw [← hcon]
        decide
      simp [hne]
    | cons c cs =>
      simp only [List.cons_append, ciPre, List.append_eq]
      rw [ih cs (fun q hq => hA q (List.mem_cons_of_mem p hq))
          (fun d hd => hs d (List.mem_cons_of_mem c hd))]

/-- Every character of a pattern that matches inside a scheme run is itself a
scheme character. -/
theorem ciPre_schemeRun (pat sch : List Char)
    (hs : ∀ c ∈ sch, isSchemeChar c = true) (h : ciPre pat sch = true) :
    ∀ p ∈ pat, isSchemeChar p = true := by
  induction pat generalizing sch with
  | nil => intro p hp; cases hp
  | cons p ps ih =>
    cases sch with
    | nil => cases h
    | cons c cs =>
      simp only [ciPre, Bool.and_eq_true, beq_iff_eq] at h
      intro q hq
      rcases List.mem_cons.mp hq with hq | hq
      · subst hq
        rw [← h.1]
        exact isSchemeChar_lowChar (hs c (List.mem_cons_self c cs))
      · exact ih cs (fun d hd => hs d (List.mem_cons_of_mem c hd)) h.2 q hq

/-- A successful case-insensitive prefix match decomposes the string. -/
theorem ciPre_decomp {pat s : List Char} (h : ciPre pat s = true) :
    ∃ pre rest, s = pre ++ rest ∧ pre.map lowChar = pat ∧ pre.length = pat.length := by
  induction pat generalizing s with
  | nil => exact ⟨[], s, rfl, rfl, rfl⟩
  | cons p ps ih =>
    cases s with
    | nil => cases h
    | cons c cs =>
      simp only [ciPre, Bool.and_eq_true, beq_iff_eq] at h
      obtain ⟨pre, rest, h1, h2, h3⟩ := ih h.2
      exact ⟨c :: pre, rest, by rw [List.cons_append, h1], by simp [h2, h.1], by simp [h3]⟩

/-- A string that literally extends the (case-folded image of) a pattern
matches it. -/
theorem ciPre_of_map {pat pre : List Char} (w : List Char) (h : pre.map lowChar = pat) :
    ciPre pat (pre ++ w) = true := by
  induction pre generalizing pat with
  | nil => rw [← h]; exact rfl
  | cons c cs ih =>
    rw [← h]
    simp only [List.map_cons, List.cons_append, ciPre, Bool.and_eq_true, beq_iff_eq]
    exact ⟨trivial, ih rfl⟩

/-- A match fails as soon as the first characters differ. -/
theorem ciPre_head_ne {p c : Char} (ps cs : List Char) (h : lowChar c ≠ p) :
    ciPre (p :: ps) (c :: cs) = false := by
  simp [ciPre, h]

/-- No character of the list is a space at the end of the list. -/
def noTrailSpace (l : List Char) : Prop :=
  ∀ c, l.getLast? = some c → pySpace c = false

theorem noTrailSpace_nil : noTrailSpace [] := by
  intro c hc
  cases hc

theorem noTrailSpace_append {a b : List Char} (ha : noTrailSpace a) (hb : noTrailSpace b) :
    noTrailSpace (a ++ b) := by
  intro c hc
  cases hbe : b with
  | nil =>
    subst hbe
    rw [List.append_nil] at hc
    exact ha c hc
  | cons x xs =>
    rw [List.getLast?_append_of_ne_nil a (by simp [hbe])] at hc
    exact hb c hc

theorem noTrailSpace_suffix {a b : List Char} (h : a <:+ b) (hb : noTrailSpace b) :
    noTrailSpace a := by
  obtain ⟨t, rfl⟩ := h
  intro c hc
  have hne : a ≠ [] := by
    intro he
    rw [he] at hc
    cases hc
  rw [← List.getLast?_append_of_ne_nil t hne] at hc
  exact hb c hc

theorem noTrailSpace_concat {l : List Char} {c : Char} (h : pySpace c = false) :
    noTrailSpace (l ++ [c]) := by
  intro d hd
  rw [List.getLast?_concat l] at hd
  cases hd
  exact h

/-- If the head does not satisfy `p` (or the list is empty), `dropWhile p`
is the identity. -/
theorem dropWhile_id_of_head {p : Char → Bool} {l : List Char}
    (h : ∀ c, l.head? = some c → p c = false) : l.dropWhile p = l := by
  cases l with
  | nil => rfl
  | cons c cs =>
    have hp := h c rfl
    simp [List.dropWhile, hp]

/-- The head of `dropWhile p l` never satisfies `p`. -/
theorem head_dropWhile_false (p : Char → Bool) (l : List Char) :
    ∀ c, (l.dropWhile p).head? = some c → p c = false := by
  induction l with
  | nil => intro c hc; cases hc
  | cons x xs ih =>
    intro c hc
    by_cases hx : p x = true
    · rw [List.dropWhile_cons_of_pos hx] at hc
      exact ih c hc
    · rw [List.dropWhile_cons_of_neg hx] at hc
      cases hc
      exact Bool.eq_false_iff.mpr hx

/-- Lemma: `pyStrip` leaves no trailing whitespace. -/
theorem noTrailSpace_pyStrip (v : List Char) : noTrailSpace (pyStrip v) := by
  intro c hc
  unfold pyStrip at hc
  rw [List.getLast?_reverse] at hc
  exact head_dropWhile_false pySpace _ c hc

/-- No backslash survives `deslash`. -/
theorem deslash_noBS (v : List Char) : ∀ c ∈ deslash v, c ≠ '\\' := by
  intro c hc
  obtain ⟨d, _, rfl⟩ := List.mem_map.mp hc
  by_cases hd : d = '\\' <;> simp [hd]

theorem deslash_noTrail {v : List Char} (h : noTrailSpace v) :
    noTrailSpace (deslash v) := by
  intro c hc
  unfold deslash at hc
  rw [List.getLast?_map] at hc
  cases hv : v.getLast? with
  | none => rw [hv] at hc; cases hc
  | some d =>
    rw [hv] at hc
    have hd := h d hv
    cases hc
    by_cases hb : d = '\\'
    · subst hb; decide
    · simp [hb, hd]

/-! ## Shape of normalized output

Every nonempty output of `normChars` consists of a scheme run followed by
`://` and a remainder, and satisfies the side conditions that make every
rewrite rule of `normChars` the identity on it. -/

def GoodOut (y : List Char) : Prop :=
  ∃ sch rest,
    y = sch ++ ':' :: '/' :: '/' :: rest ∧
    (∃ a t, sch = a :: t ∧ isAsciiAlpha a = true) ∧
    (∀ c ∈ sch, isSchemeChar c = true) ∧
    ((sch.map lowChar = ['h', 't', 't', 'p'] ∨ sch.map lowChar = ['h', 't', 't', 'p', 's']) →
      rest.dropWhile (fun c => c = '/') = rest) ∧
    ciPre patWwwHttps y = false ∧ ciPre patWwwHttp y = false ∧ ciPre patWwwDot y = false ∧
    (∀ c ∈ y, c ≠ '\\') ∧ noTrailSpace y

theorem fixOneSlash_of_good {y : List Char} (hg : GoodOut y) : fixOneSlash y = y := by
  obtain ⟨sch, rest, hy, ⟨a, t, hsch, ha⟩, hs, hb, hw1, hw2, hw3, hbs, hts⟩ := hg
  have hdrop7 : ciPre patHttpsC y = true → y.drop 7 = '/' :: rest := by
    intro h1
    rw [hy, show patHttpsC = ['h', 't', 't', 'p', 's'] ++ ':' :: ['/'] from rfl,
      ciPre_align _ _ _ _ (by decide) hs] at h1
    have hlen : sch.length = 5 := by simpa using congrArg List.length h1.1
    have hre : y = (sch ++ [':', '/']) ++ '/' :: rest := by rw [hy]; simp
    rw [hre, List.drop_left' (by simp [hlen])]
  have hdrop6 : ciPre patHttpC y = true → y.drop 6 = '/' :: rest := by
    intro h1
    rw [hy, show patHttpC = ['h', 't', 't', 'p'] ++ ':' :: ['/'] from rfl,
      ciPre_align _ _ _ _ (by decide) hs] at h1
    have hlen : sch.length = 4 := by simpa using congrArg List.length h1.1
    have hre : y = (sch ++ [':', '/']) ++ '/' :: rest := by rw [hy]; simp
    rw [hre, List.drop_left' (by simp [hlen])]
  unfold fixOneSlash
  by_cases h1 : ciPre patHttpsC y = true
  · rw [if_pos h1, hdrop7 h1]
    simp
  · rw [if_neg h1]
    by_cases h2 : ciPre patHttpC y = true
    · rw [if_pos h2, hdrop6 h2]
      simp
    · rw [if_neg h2]

theorem collapseSlashes_of_good {y : List Char} (hg : GoodOut y) : collapseSlashes y = y := by
  obtain ⟨sch, rest, hy, ⟨a, t, hsch, ha⟩, hs, hb, hw1, hw2, hw3, hbs, hts⟩ := hg
  unfold collapseSlashes
  by_cases h1 : ciPre patHttpsF y = true
  · rw [if_pos h1]
    rw [hy, show patHttpsF = ['h', 't', 't', 'p', 's'] ++ ':' :: ['/', '/'] from rfl,
      ciPre_align _ _ _ _ (by decide) hs] at h1
    have hlen : sch.length = 5 := by simpa using congrArg List.length h1.1
    have hA : y = (sch ++ [':', '/', '/']) ++ rest := by rw [hy]; simp
    rw [hA, List.take_left' (by simp [hlen]), List.drop_left' (by simp [hlen]),
      hb (Or.inr h1.1)]
  · rw [if_neg h1]
    by_cases h2 : ciPre patHttpF y = true
    · rw [if_pos h2]
      rw [hy, show patHttpF = ['h', 't', 't', 'p'] ++ ':' :: ['/', '/'] from rfl,
        ciPre_align _ _ _ _ (by decide) hs] at h2
      have hlen : sch.length = 4 := by simpa using congrArg List.length h2.1
      have hA : y = (sch ++ [':', '/', '/']) ++ rest := by rw [hy]; simp
      rw [hA, List.take_left' (by simp [hlen]), List.drop_left' (by simp [hlen]),
        hb (Or.inl h2.1)]
    · rw [if_neg h2]

theorem fixMissingColon_of_good {y : List Char} (hg : GoodOut y) : fixMissingColon y = y := by
  obtain ⟨sch, rest, hy, ⟨a, t, hsch, ha⟩, hs, hb, hw1, hw2, hw3, hbs, hts⟩ := hg
  have h1 : ciPre patHttpsN y = false := by
    rw [hy, ciPre_noColon _ _ _ (by decide) hs]
    cases hcp : ciPre patHttpsN sch with
    | false => rfl
    | true =>
      exact absurd (ciPre_schemeRun _ _ hs hcp '/' (by decide)) (by decide)
  have h2 : ciPre patHttpN y = false := by
    rw [hy, ciPre_noColon _ _ _ (by decide) hs]
    cases hcp : ciPre patHttpN sch with
    | false => rfl
    | true =>
      exact absurd (ciPre_schemeRun _ _ hs hcp '/' (by decide)) (by decide)
  unfold fixMissingColon
  rw [if_neg (by rw [h1]; exact Bool.false_ne_true), if_neg (by rw [h2]; exact Bool.false_ne_true)]

theorem fixWwwScheme_of_good {y : List Char} (hg : GoodOut y) : fixWwwScheme y = y := by
  obtain ⟨sch, rest, hy, ⟨a, t, hsch, ha⟩, hs, hb, hw1, hw2, hw3, hbs, hts⟩ := hg
  unfold fixWwwScheme
  rw [if_neg (by rw [hw1]; exact Bool.false_ne_true), if_neg (by rw [hw2]; exact Bool.false_ne_true)]

theorem addWwwScheme_of_good {y : List Char} (hg : GoodOut y) : addWwwScheme y = y := by
  obtain ⟨sch, rest, hy, ⟨a, t, hsch, ha⟩, hs, hb, hw1, hw2, hw3, hbs, hts⟩ := hg
  unfold addWwwScheme
  rw [if_neg (by rw [hw3]; exact Bool.false_ne_true)]

theorem triple_isPrefixOf (rest : List Char) :
    [':', '/', '/'].isPrefixOf (':' :: '/' :: '/' :: rest) = true := by
  simp [List.isPrefixOf]

theorem addScheme_of_good {y : List Char} (hg : GoodOut y) : addScheme y = y := by
  obtain ⟨sch, rest, hy, ⟨a, t, hsch, ha⟩, hs, hb, hw1, hw2, hw3, hbs, hts⟩ := hg
  have hs' : ∀ c ∈ a :: t, isSchemeChar c = true := by rw [← hsch]; exact hs
  have hsc : hasScheme y = true := by
    rw [hy, hsch, List.cons_append]
    unfold hasScheme
    have hback : a :: (t ++ ':' :: '/' :: '/' :: rest) = (a :: t) ++ ':' :: '/' :: '/' :: rest := by
      simp
    have hdw : (a :: (t ++ ':' :: '/' :: '/' :: rest)).dropWhile isSchemeChar =
        ':' :: '/' :: '/' :: rest := by
      rw [hback, List.dropWhile_append_of_pos hs', List.dropWhile_cons_of_neg (by decide)]
    rw [hdw]
    show (isAsciiAlpha a && [':', '/', '/'].isPrefixOf (':' :: '/' :: '/' :: rest)) = true
    rw [ha, triple_isPrefixOf]
    rfl
  unfold addScheme
  rw [if_pos hsc]

theorem pyStrip_of_good {y : List Char} (hg : GoodOut y) : pyStrip y = y := by
  obtain ⟨sch, rest, hy, ⟨a, t, hsch, ha⟩, hs, hb, hw1, hw2, hw3, hbs, hts⟩ := hg
  have hhead : ∀ c, y.head? = some c → pySpace c = false := by
    intro c hc
    rw [hy, hsch, List.cons_append] at hc
    cases hc
    exact isAsciiAlpha_not_pySpace ha
  have htail : ∀ c, y.reverse.head? = some c → pySpace c = false := by
    intro c hc
    rw [List.head?_reverse] at hc
    exact hts c hc
  unfold pyStrip
  rw [dropWhile_id_of_head hhead, dropWhile_id_of_head htail, List.reverse_reverse]

theorem deslash_of_good {y : List Char} (hg : GoodOut y) : deslash y = y := by
  obtain ⟨sch, rest, hy, ⟨a, t, hsch, ha⟩, hs, hb, hw1, hw2, hw3, hbs, hts⟩ := hg
  unfold deslash
  have hcg : ∀ c ∈ y, (if c = '\\' then '/' else c) = c := by
    intro c hc
    simp [hbs c hc]
  rw [List.map_congr_left hcg, List.map_id']

/-- Lemma: `normChars` is the identity on every well-shaped string. -/
theorem normChars_of_good {y : List Char} (hg : GoodOut y) : normChars y = y := by
  have hne : y ≠ [] := by
    obtain ⟨sch, rest, hy, ⟨a, t, hsch, _⟩, _⟩ := hg
    rw [hy, hsch]
    simp
  unfold normChars
  rw [if_neg hne, pyStrip_of_good hg, deslash_of_good hg, fixOneSlash_of_good hg,
    collapseSlashes_of_good hg, fixMissingColon_of_good hg, fixWwwScheme_of_good hg,
    addWwwScheme_of_good hg, addScheme_of_good hg, collapseSlashes_of_good hg]

/-! ## Preservation lemmas along the normalization pipeline -/

theorem noTrail_litHttps : noTrailSpace litHttps := by
  intro c hc
  have h : litHttps.getLast? = some '/' := rfl
  rw [h] at hc
  cases hc
  decide

theorem mem_fixOneSlash {c : Char} {s : List Char} (h : c ∈ fixOneSlash s) :
    c ∈ s ∨ c = '/' := by
  unfold fixOneSlash at h
  by_cases h1 : ciPre patHttpsC s = true
  · rw [if_pos h1] at h
    cases hd : s.drop 7 with
    | nil => rw [hd] at h; exact Or.inl h
    | cons d ds =>
      rw [hd] at h
      have h2 : c ∈ (if d = '/' then s else s.take 7 ++ '/' :: d :: ds) := h
      by_cases hds : d = '/'
      · rw [if_pos hds] at h2; exact Or.inl h2
      · rw [if_neg hds] at h2
        rcases List.mem_append.mp h2 with h3 | h3
        · exact Or.inl (List.take_subset 7 s h3)
        · rcases List.mem_cons.mp h3 with h4 | h4
          · exact Or.inr h4
          · exact Or.inl (List.drop_subset 7 s (hd ▸ h4))
  · rw [if_neg h1] at h
    by_cases h2 : ciPre patHttpC s = true
    · rw [if_pos h2] at h
      cases hd : s.drop 6 with
      | nil => rw [hd] at h; exact Or.inl h
      | cons d ds =>
        rw [hd] at h
        have h2 : c ∈ (if d = '/' then s else s.take 6 ++ '/' :: d :: ds) := h
        by_cases hds : d = '/'
        · rw [if_pos hds] at h2; exact Or.inl h2
        · rw [if_neg hds] at h2
          rcases List.mem_append.mp h2 with h3 | h3
          · exact Or.inl (List.take_subset 6 s h3)
          · rcases List.mem_cons.mp h3 with h4 | h4
            · exact Or.inr h4
            · exact Or.inl (List.drop_subset 6 s (hd ▸ h4))
    · rw [if_neg h2] at h
      exact Or.inl h

theorem mem_collapseSlashes {c : Char} {s : List Char} (h : c ∈ collapseSlashes s) :
    c ∈ s := by
  unfold collapseSlashes at h
  by_cases h1 : ciPre patHttpsF s = true
  · rw [if_pos h1] at h
    rcases List.mem_append.mp h with h | h
    · exact List.take_subset 8 s h
    · exact List.drop_subset 8 s ((List.dropWhile_suffix _).subset h)
  · rw [if_neg h1] at h
    by_cases h2 : ciPre patHttpF s = true
    · rw [if_pos h2] at h
      rcases List.mem_append.mp h with h | h
      · exact List.take_subset 7 s h
      · exact List.drop_subset 7 s ((List.dropWhile_suffix _).subset h)
    · rw [if_neg h2] at h
      exact h

theorem mem_fixMissingColon {c : Char} {s : List Char} (h : c ∈ fixMissingColon s) :
    c ∈ s ∨ c = ':' := by
  unfold fixMissingColon at h
  by_cases h1 : ciPre patHttpsN s = true
  · rw [if_pos h1] at h
    rcases List.mem_append.mp h with h | h
    · exact Or.inl (List.take_subset 5 s h)
    · rcases List.mem_cons.mp h with h | h
      · exact Or.inr h
      · exact Or.inl (List.drop_subset 5 s h)
  · rw [if_neg h1] at h
    by_cases h2 : ciPre patHttpN s = true
    · rw [if_pos h2] at h
      rcases List.mem_append.mp h with h | h
      · exact Or.inl (List.take_subset 4 s h)
      · rcases List.mem_cons.mp h with h | h
        · exact Or.inr h
        · exact Or.inl (List.drop_subset 4 s h)
    · rw [if_neg h2] at h
      exact Or.inl h

theorem mem_fixWwwScheme {c : Char} {s : List Char} (h : c ∈ fixWwwScheme s) :
    c ∈ s ∨ c ∈ litHttps := by
  unfold fixWwwScheme at h
  by_cases h1 : ciPre patWwwHttps s = true
  · rw [if_pos h1] at h
    rcases List.mem_append.mp h with h | h
    · exact Or.inr h
    · exact Or.inl (List.drop_subset 11 s h)
  · rw [if_neg h1] at h
    by_cases h2 : ciPre patWwwHttp s = true
    · rw [if_pos h2] at h
      rcases List.mem_append.mp h with h | h
      · exact Or.inr h
      · exact Or.inl (List.drop_subset 10 s h)
    · rw [if_neg h2] at h
      exact Or.inl h

theorem mem_addWwwScheme {c : Char} {s : List Char} (h : c ∈ addWwwScheme s) :
    c ∈ s ∨ c ∈ litHttps := by
  unfold addWwwScheme at h
  by_cases h1 : ciPre patWwwDot s = true
  · rw [if_pos h1] at h
    rcases List.mem_append.mp h with h | h
    · exact Or.inr h
    · exact Or.inl h
  · rw [if_neg h1] at h
    exact Or.inl h

theorem mem_addScheme {c : Char} {s : List Char} (h : c ∈ addScheme s) :
    c ∈ s ∨ c ∈ litHttps := by
  unfold addScheme at h
  by_cases h1 : hasScheme s = true
  · rw [if_pos h1] at h
    exact Or.inl h
  · rw [if_neg h1] at h
    rcases List.mem_append.mp h with h | h
    · exact Or.inr h
    · exact Or.inl h

theorem noTrail_fixOneSlash {s : List Char} (h : noTrailSpace s) :
    noTrailSpace (fixOneSlash s) := by
  unfold fixOneSlash
  by_cases h1 : ciPre patHttpsC s = true
  · rw [if_pos h1]
    cases hd : s.drop 7 with
    | nil => exact h
    | cons d ds =>
      show noTrailSpace (if d = '/' then s else s.take 7 ++ '/' :: d :: ds)
      by_cases hds : d = '/'
      · rw [if_pos hds]; exact h
      · rw [if_neg hds]
        have hform : s.take 7 ++ '/' :: d :: ds = (s.take 7 ++ ['/']) ++ d :: ds := by simp
        rw [hform]
        exact noTrailSpace_append (noTrailSpace_concat (by decide))
          (noTrailSpace_suffix (hd ▸ List.drop_suffix 7 s) h)
  · rw [if_neg h1]
    by_cases h2 : ciPre patHttpC s = true
    · rw [if_pos h2]
      cases hd : s.drop 6 with
      | nil => exact h
      | cons d ds =>
        show noTrailSpace (if d = '/' then s else s.take 6 ++ '/' :: d :: ds)
        by_cases hds : d = '/'
        · rw [if_pos hds]; exact h
        · rw [if_neg hds]
          have hform : s.take 6 ++ '/' :: d :: ds = (s.take 6 ++ ['/']) ++ d :: ds := by simp
          rw [hform]
          exact noTrailSpace_append (noTrailSpace_concat (by decide))
            (noTrailSpace_suffix (hd ▸ List.drop_suffix 6 s) h)
    · rw [if_neg h2]; exact h

theorem noTrail_collapseSlashes {s : List Char} (h : noTrailSpace s) :
    noTrailSpace (collapseSlashes s) := by
  unfold collapseSlashes
  by_cases h1 : ciPre patHttpsF s = true
  · rw [if_pos h1]
    obtain ⟨pre, rest, hps, hmap, hlen⟩ := ciPre_decomp h1
    have hlen8 : pre.length = 8 := hlen
    have hpre : noTrailSpace pre := by
      intro d hdl
      have hml : (pre.map lowChar).getLast? = pre.getLast?.map lowChar := List.getLast?_map _ _
      rw [hmap, hdl] at hml
      have : lowChar d = '/' := by
        have hpat : patHttpsF.getLast? = some '/' := rfl
        rw [hpat] at hml
        exact (Option.some.injEq _ _).mp hml.symm
      rw [(lowChar_slash_iff d).mp this]
      decide
    have hrs : rest <:+ s := ⟨pre, hps.symm⟩
    rw [hps, List.take_left' hlen8, List.drop_left' hlen8]
    exact noTrailSpace_append hpre
      (noTrailSpace_suffix ((List.dropWhile_suffix _).trans hrs) h)
  · rw [if_neg h1]
    by_cases h2 : ciPre patHttpF s = true
    · rw [if_pos h2]
      obtain ⟨pre, rest, hps, hmap, hlen⟩ := ciPre_decomp h2
      have hlen7 : pre.length = 7 := hlen
      have hpre : noTrailSpace pre := by
        intro d hdl
        have hml : (pre.map lowChar).getLast? = pre.getLast?.map lowChar := List.getLast?_map _ _
        rw [hmap, hdl] at hml
        have : lowChar d = '/' := by
          have hpat : patHttpF.getLast? = some '/' := rfl
          rw [hpat] at hml
          exact (Option.some.injEq _ _).mp hml.symm
        rw [(lowChar_slash_iff d).mp this]
        decide
      have hrs : rest <:+ s := ⟨pre, hps.symm⟩
      rw [hps, List.take_left' hlen7, List.drop_left' hlen7]
      exact noTrailSpace_append hpre
        (noTrailSpace_suffix ((List.dropWhile_suffix _).trans hrs) h)
    · rw [if_neg h2]; exact h

theorem noTrail_fixMissingColon {s : List Char} (h : noTrailSpace s) :
    noTrailSpace (fixMissingColon s) := by
  unfold fixMissingColon
  by_cases h1 : ciPre patHttpsN s = true
  · rw [if_pos h1]
    have hform : s.take 5 ++ ':' :: s.drop 5 = (s.take 5 ++ [':']) ++ s.drop 5 := by simp
    rw [hform]
    exact noTrailSpace_append (noTrailSpace_concat (by decide))
      (noTrailSpace_suffix (List.drop_suffix 5 s) h)
  · rw [if_neg h1]
    by_cases h2 : ciPre patHttpN s = true
    · rw [if_pos h2]
      have hform : s.take 4 ++ ':' :: s.drop 4 = (s.take 4 ++ [':']) ++ s.drop 4 := by simp
      rw [hform]
      exact noTrailSpace_append (noTrailSpace_concat (by decide))
        (noTrailSpace_suffix (List.drop_suffix 4 s) h)
    · rw [if_neg h2]; exact h

theorem noTrail_fixWwwScheme {s : List Char} (h : noTrailSpace s) :
    noTrailSpace (fixWwwScheme s) := by
  unfold fixWwwScheme
  by_cases h1 : ciPre patWwwHttps s = true
  · rw [if_pos h1]
    exact noTrailSpace_append noTrail_litHttps (noTrailSpace_suffix (List.drop_suffix 11 s) h)
  · rw [if_neg h1]
    by_cases h2 : ciPre patWwwHttp s = true
    · rw [if_pos h2]
      exact noTrailSpace_append noTrail_litHttps (noTrailSpace_suffix (List.drop_suffix 10 s) h)
    · rw [if_neg h2]; exact h

theorem noTrail_addWwwScheme {s : List Char} (h : noTrailSpace s) :
    noTrailSpace (addWwwScheme s) := by
  unfold addWwwScheme
  by_cases h1 : ciPre patWwwDot s = true
  · rw [if_pos h1]
    exact noTrailSpace_append noTrail_litHttps h
  · rw [if_neg h1]; exact h

/-- The first two characters of `patWwwHttps`, `patWwwHttp` and `patWwwDot`
are `w`, so none of them can match a string whose head folds to `h`. -/
theorem ciPre_www_false_of_head (c : Char) (cs : List Char) (hc : lowChar c = 'h') :
    ciPre patWwwHttps (c :: cs) = false ∧ ciPre patWwwHttp (c :: cs) = false ∧
      ciPre patWwwDot (c :: cs) = false := by
  have hne : lowChar c ≠ 'w' := by rw [hc]; decide
  exact ⟨ciPre_head_ne _ _ hne, ciPre_head_ne _ _ hne, ciPre_head_ne _ _ hne⟩

/-- After `fixWwwScheme`, the string no longer starts (case-insensitively)
with `wwwhttp://` or `wwwhttps://`. -/
theorem wwwFree_fixWwwScheme (s : List Char) :
    ciPre patWwwHttps (fixWwwScheme s) = false ∧ ciPre patWwwHttp (fixWwwScheme s) = false := by
  unfold fixWwwScheme
  by_cases h1 : ciPre patWwwHttps s = true
  · rw [if_pos h1]
    have hf : litHttps ++ s.drop 11 = 'h' :: (['t', 't', 'p', 's', ':', '/', '/'] ++ s.drop 11) := rfl
    rw [hf]
    obtain ⟨a, b, _⟩ := ciPre_www_false_of_head 'h'
      (['t', 't', 'p', 's', ':', '/', '/'] ++ s.drop 11) (by decide)
    exact ⟨a, b⟩
  · rw [if_neg h1]
    by_cases h2 : ciPre patWwwHttp s = true
    · rw [if_pos h2]
      have hf : litHttps ++ s.drop 10 = 'h' :: (['t', 't', 'p', 's', ':', '/', '/'] ++ s.drop 10) := rfl
      rw [hf]
      obtain ⟨a, b, _⟩ := ciPre_www_false_of_head 'h'
        (['t', 't', 'p', 's', ':', '/', '/'] ++ s.drop 10) (by decide)
      exact ⟨a, b⟩
    · rw [if_neg h2]
      exact ⟨Bool.eq_false_iff.mpr h1, Bool.eq_false_iff.mpr h2⟩

theorem wwwFree_addWwwScheme {s : List Char}
    (h : ciPre patWwwHttps s = false ∧ ciPre patWwwHttp s = false) :
    ciPre patWwwHttps (addWwwScheme s) = false ∧ ciPre patWwwHttp (addWwwScheme s) = false ∧
      ciPre patWwwDot (addWwwScheme s) = false := by
  unfold addWwwScheme
  by_cases h1 : ciPre patWwwDot s = true
  · rw [if_pos h1]
    have hf : litHttps ++ s = 'h' :: (['t', 't', 'p', 's', ':', '/', '/'] ++ s) := rfl
    rw [hf]
    exact ciPre_www_false_of_head 'h' _ (by decide)
  · rw [if_neg h1]
    exact ⟨h.1, h.2, Bool.eq_false_iff.mpr h1⟩

theorem wwwFree_addScheme {s : List Char}
    (h : ciPre patWwwHttps s = false ∧ ciPre patWwwHttp s = false ∧
      ciPre patWwwDot s = false) :
    ciPre patWwwHttps (addScheme s) = false ∧ ciPre patWwwHttp (addScheme s) = false ∧
      ciPre patWwwDot (addScheme s) = false := by
  unfold addScheme
  by_cases h1 : hasScheme s = true
  · rw [if_pos h1]
    exact h
  · rw [if_neg h1]
    have hf : litHttps ++ s = 'h' :: (['t', 't', 'p', 's', ':', '/', '/'] ++ s) := rfl
    rw [hf]
    exact ciPre_www_false_of_head 'h' _ (by decide)

theorem wwwFree_collapseSlashes {s : List Char}
    (h : ciPre patWwwHttps s = false ∧ ciPre patWwwHttp s = false ∧
      ciPre patWwwDot s = false) :
    ciPre patWwwHttps (collapseSlashes s) = false ∧
      ciPre patWwwHttp (collapseSlashes s) = false ∧
      ciPre patWwwDot (collapseSlashes s) = false := by
  unfold collapseSlashes
  by_cases h1 : ciPre patHttpsF s = true
  · rw [if_pos h1]
    obtain ⟨pre, rest, hps, hmap, hlen⟩ := ciPre_decomp h1
    cases hpe : pre with
    | nil => rw [hpe] at hlen; cases hlen
    | cons p0 ptl =>
      have hl : lowChar p0 = 'h' := by
        rw [hpe] at hmap
        simp only [List.map_cons] at hmap
        exact (List.cons_eq_cons.mp hmap).1
      rw [hps, hpe, List.take_left' (hpe ▸ hlen), List.drop_left' (hpe ▸ hlen), List.cons_append]
      exact ciPre_www_false_of_head p0 _ hl
  · rw [if_neg h1]
    by_cases h2 : ciPre patHttpF s = true
    · rw [if_pos h2]
      obtain ⟨pre, rest, hps, hmap, hlen⟩ := ciPre_decomp h2
      cases hpe : pre with
      | nil => rw [hpe] at hlen; cases hlen
      | cons p0 ptl =>
        have hl : lowChar p0 = 'h' := by
          rw [hpe] at hmap
          simp only [List.map_cons] at hmap
          exact (List.cons_eq_cons.mp hmap).1
        rw [hps, hpe, List.take_left' (hpe ▸ hlen), List.drop_left' (hpe ▸ hlen), List.cons_append]
        exact ciPre_www_false_of_head p0 _ hl
    · rw [if_neg h2]
      exact h

/-- Decomposition of a string accepted by the scheme regex. -/
theorem hasScheme_decomp {v : List Char} (h : hasScheme v = true) :
    ∃ a t rest, v = (a :: t) ++ ':' :: '/' :: '/' :: rest ∧ isAsciiAlpha a = true ∧
      (∀ c ∈ a :: t, isSchemeChar c = true) := by
  cases v with
  | nil => cases h
  | cons a v' =>
    have h' : (isAsciiAlpha a && [':', '/', '/'].isPrefixOf ((a :: v').dropWhile isSchemeChar)) = true := h
    rw [Bool.and_eq_true] at h'
    obtain ⟨ha, hp⟩ := h'
    have hpre : [':', '/', '/'] <+: (a :: v').dropWhile isSchemeChar :=
      List.isPrefixOf_iff_prefix.mp hp
    obtain ⟨r, hr⟩ := hpre
    have hsplit : (a :: v').takeWhile isSchemeChar ++ (a :: v').dropWhile isSchemeChar = a :: v' :=
      List.takeWhile_append_dropWhile _ _
    have hsa : isSchemeChar a = true := isAsciiAlpha_isSchemeChar ha
    have htk : (a :: v').takeWhile isSchemeChar = a :: v'.takeWhile isSchemeChar := by
      simp [List.takeWhile_cons, hsa]
    refine ⟨a, v'.takeWhile isSchemeChar, r, ?_, ha, ?_⟩
    · rw [← htk, show (':' :: '/' :: '/' :: r : List Char) = [':', '/', '/'] ++ r from rfl,
        hr, hsplit]
    · intro c hc
      rw [← htk] at hc
      exact List.mem_takeWhile_imp hc

theorem litHttps_noBS : ∀ x ∈ litHttps, x ≠ '\\' := by decide

/-- Every nonempty input normalizes to a well-shaped string. -/
theorem goodOut_normChars {s : List Char} (hne : s ≠ []) : GoodOut (normChars s) := by
  unfold normChars
  rw [if_neg hne]
  set u5 := addWwwScheme (fixWwwScheme (fixMissingColon (collapseSlashes
    (fixOneSlash (deslash (pyStrip s)))))) with hu5d
  have h5bs : ∀ c ∈ u5, c ≠ '\\' := by
    rw [hu5d]
    intro c hc
    rcases mem_addWwwScheme hc with hc | hc
    · rcases mem_fixWwwScheme hc with hc | hc
      · rcases mem_fixMissingColon hc with hc | hc
        · rcases mem_fixOneSlash (mem_collapseSlashes hc) with hc | hc
          · exact deslash_noBS _ c hc
          · subst hc; decide
        · subst hc; decide
      · exact litHttps_noBS c hc
    · exact litHttps_noBS c hc
  have h5ts : noTrailSpace u5 := by
    rw [hu5d]
    exact noTrail_addWwwScheme (noTrail_fixWwwScheme (noTrail_fixMissingColon
      (noTrail_collapseSlashes (noTrail_fixOneSlash
        (deslash_noTrail (noTrailSpace_pyStrip s))))))
  have h5w : ciPre patWwwHttps u5 = false ∧ ciPre patWwwHttp u5 = false ∧
      ciPre patWwwDot u5 = false := by
    rw [hu5d]
    exact wwwFree_addWwwScheme (wwwFree_fixWwwScheme _)
  have h6w := wwwFree_addScheme h5w
  have hybs : ∀ c ∈ collapseSlashes (addScheme u5), c ≠ '\\' := by
    intro c hc
    rcases mem_addScheme (mem_collapseSlashes hc) with hc | hc
    · exact h5bs c hc
    · exact litHttps_noBS c hc
  have hyts : noTrailSpace (collapseSlashes (addScheme u5)) := by
    apply noTrail_collapseSlashes
    unfold addScheme
    by_cases hS : hasScheme u5 = true
    · rw [if_pos hS]; exact h5ts
    · rw [if_neg hS]; exact noTrailSpace_append noTrail_litHttps h5ts
  have hyw := wwwFree_collapseSlashes h6w
  by_cases hS : hasScheme u5 = true
  · have hadd : addScheme u5 = u5 := by unfold addScheme; rw [if_pos hS]
    rw [hadd] at hyw hybs hyts ⊢
    obtain ⟨a, t, r, hu5, ha, hsc⟩ := hasScheme_decomp hS
    by_cases g1 : ciPre patHttpsF u5 = true
    · have g1' := g1
      rw [hu5, show patHttpsF = ['h', 't', 't', 'p', 's'] ++ ':' :: ['/', '/'] from rfl,
        ciPre_align _ _ _ _ (by decide) hsc] at g1'
      have hlen : ((a :: t) ++ [':', '/', '/']).length = 8 := by
        have h5 : (a :: t).length = 5 := by simpa using congrArg List.length g1'.1
        simp only [List.length_append, List.length_cons, List.length_nil] at h5 ⊢
        omega
      have hcol : collapseSlashes u5 =
          (a :: t) ++ ':' :: '/' :: '/' :: r.dropWhile (fun c => c = '/') := by
        unfold collapseSlashes
        rw [if_pos g1]
        have hA : u5 = ((a :: t) ++ [':', '/', '/']) ++ r := by rw [hu5]; simp
        rw [hA, List.take_left' hlen, List.drop_left' hlen]
        simp
      rw [hcol] at hyw hybs hyts ⊢
      exact ⟨a :: t, r.dropWhile (fun c => c = '/'), rfl, ⟨a, t, rfl, ha⟩, hsc,
        fun _ => List.dropWhile_idempotent _ _, hyw.1, hyw.2.1, hyw.2.2, hybs, hyts⟩
    · by_cases g2 : ciPre patHttpF u5 = true
      · have g2' := g2
        rw [hu5, show patHttpF = ['h', 't', 't', 'p'] ++ ':' :: ['/', '/'] from rfl,
          ciPre_align _ _ _ _ (by decide) hsc] at g2'
        have hlen : ((a :: t) ++ [':', '/', '/']).length = 7 := by
          have h4 : (a :: t).length = 4 := by simpa using congrArg List.length g2'.1
          simp only [List.length_append, List.length_cons, List.length_nil] at h4 ⊢
          omega
        have hcol : collapseSlashes u5 =
            (a :: t) ++ ':' :: '/' :: '/' :: r.dropWhile (fun c => c = '/') := by
          unfold collapseSlashes
          rw [if_neg g1, if_pos g2]
          have hA : u5 = ((a :: t) ++ [':', '/', '/']) ++ r := by rw [hu5]; simp
          rw [hA, List.take_left' hlen, List.drop_left' hlen]
          simp
        rw [hcol] at hyw hybs hyts ⊢
        exact ⟨a :: t, r.dropWhile (fun c => c = '/'), rfl, ⟨a, t, rfl, ha⟩, hsc,
          fun _ => List.dropWhile_idempotent _ _, hyw.1, hyw.2.1, hyw.2.2, hybs, hyts⟩
      · have hcol : collapseSlashes u5 = u5 := by
          unfold collapseSlashes
          rw [if_neg g1, if_neg g2]
        rw [hcol] at hyw hybs hyts ⊢
        refine ⟨a :: t, r, hu5, ⟨a, t, rfl, ha⟩, hsc, ?_, hyw.1, hyw.2.1, hyw.2.2, hybs, hyts⟩
        intro hmap
        exfalso
        rcases hmap with hm | hm
        · apply g2
          rw [hu5, show patHttpF = ['h', 't', 't', 'p'] ++ ':' :: ['/', '/'] from rfl,
            ciPre_align _ _ _ _ (by decide) hsc]
          exact ⟨hm, show ciPre ['/', '/'] (['/', '/'] ++ r) = true from ciPre_of_map r (by decide)⟩
        · apply g1
          rw [hu5, show patHttpsF = ['h', 't', 't', 'p', 's'] ++ ':' :: ['/', '/'] from rfl,
            ciPre_align _ _ _ _ (by decide) hsc]
          exact ⟨hm, show ciPre ['/', '/'] (['/', '/'] ++ r) = true from ciPre_of_map r (by decide)⟩
  · have hadd : addScheme u5 = litHttps ++ u5 := by unfold addScheme; rw [if_neg hS]
    rw [hadd] at hyw hybs hyts ⊢
    have hci : ciPre patHttpsF (litHttps ++ u5) = true := ciPre_of_map u5 (by decide)
    have hcol : collapseSlashes (litHttps ++ u5) =
        litHttps ++ u5.dropWhile (fun c => c = '/') := by
      unfold collapseSlashes
      rw [if_pos hci, List.take_left' (show litHttps.length = 8 from rfl),
        List.drop_left' (show litHttps.length = 8 from rfl)]
    rw [hcol] at hyw hybs hyts ⊢
    exact ⟨['h', 't', 't', 'p', 's'], u5.dropWhile (fun c => c = '/'), rfl,
      ⟨'h', ['t', 't', 'p', 's'], rfl, by decide⟩, by decide,
      fun _ => List.dropWhile_idempotent _ _, hyw.1, hyw.2.1, hyw.2.2, hybs, hyts⟩

theorem normChars_idem (s : List Char) : normChars (normChars s) = normChars s := by
  by_cases hne : s = []
  · subst hne
    rfl
  · exact normChars_of_good (goodOut_normChars hne)

/-! ## Block Classifier (`_looks_blocked`, `app.py` lines 251-271) -/

/-- The marker list of `_looks_blocked`, copied verbatim. -/
def blocked_markers : List String :=
  ["access denied", "request blocked", "forbidden", "unusual traffic",
   "cloudflare", "attention required", "robot check", "/captcha",
   "akamai", "perimeterx", "datadome", "sucuri", "verification required",
   "are you a human", "temporary block", "blocked by", "ddos protection"]

/-- Models `resp_text.lower()` (on character lists). -/
def lowStr (s : List Char) : List Char := s.map lowChar

/-- Python's substring test `needle in hay`. -/
def subIn (needle : List Char) : List Char → Bool
  | [] => needle.isEmpty
  | c :: rest => needle.isPrefixOf (c :: rest) || subIn needle rest

/-- Models `_looks_blocked(resp_text, status)`.  The `resp_text or ""` guard of the
source only replaces `None` by `""`; text is always a string here.  Statuses
are Python ints, modelled as `Int`. -/
def looksBlocked (resp_text : String) (status : Int) : Bool :=
  if status = 401 || status = 403 || status = 429 then true
  else
    let low := lowStr resp_text.data
    if blocked_markers.any (fun m => subIn m.data low) then true
    else if (pyStrip low).length < 400 && (400 ≤ status && status < 600) then true
    else false

/-! ## Cookie parsing and header building (`app.py` lines 290-325) -/

/-- Python `str.split(sep)` for a one-character separator (never returns an
empty list; splitting the empty string gives `[[]]`). -/
def splitChar (sep : Char) : List Char → List (List Char)
  | [] => [[]]
  | c :: rest =>
    match splitChar sep rest with
    | [] => [[c]]
    | h :: t => if c = sep then [] :: h :: t else (c :: h) :: t

/-- Models `part.split("=", 1)` guarded by `"=" in part`: split at the first `=`. -/
def splitFirstEq (l : List Char) : Option (List Char × List Char) :=
  if '=' ∈ l then some (l.takeWhile (fun c => c ≠ '='), (l.dropWhile (fun c => c ≠ '=')).tail)
  else none

/-- Python dict update `d[k] = v`: overwrite in place or append. -/
def dictSet (d : List (List Char × List Char)) (k v : List Char) :
    List (List Char × List Char) :=
  if d.any (fun p => p.1 = k) then d.map (fun p => if p.1 = k then (k, v) else p)
  else d ++ [(k, v)]

/-- Python dict lookup. -/
def dictGet (d : List (List Char × List Char)) (k : List Char) : Option (List Char) :=
  (d.find? (fun p => p.1 = k)).map (fun p => p.2)

/-- The body of the `for part in raw.split(";")` loop of `_parse_cookies`. -/
def cookieStep (jar : List (List Char × List Char)) (part : List Char) :
    List (List Char × List Char) :=
  match splitFirstEq part with
  | none => jar
  | some (k, v) =>
    let ks := pyStrip k
    let vs := pyStrip v
    if ks ≠ [] then dictSet jar ks vs else jar

/-- Models `_parse_cookies(raw)` (`app.py` lines 317-325). -/
def parse_cookies (raw : List Char) : List (List Char × List Char) :=
  (splitChar ';' raw).foldl cookieStep []

/-- Models `"; ".join pieces`. -/
def joinSemi : List (List Char) → List Char
  | [] => []
  | [x] => x
  | x :: y :: t => x ++ ';' :: ' ' :: joinSemi (y :: t)

/-- The fixed (cookie-independent) header pairs of `_make_headers`
(`app.py` lines 290-315), with the effective user-agent substituted. -/
def baseHeaderList (ua : List Char) : List (List Char × List Char) :=
  [("User-Agent".data, ua),
   ("Accept".data, "text/html,application/xhtml+xml,application/xml;q=0.9,image/avif,image/webp,*/*;q=0.8".data),
   ("Accept-Language".data, "en-US,en;q=0.9".data),
   ("Accept-Encoding".data, "gzip, deflate".data),
   ("Cache-Control".data, "no-cache".data),
   ("Pragma".data, "no-cache".data),
   ("Connection".data, "keep-alive".data),
   ("Upgrade-Insecure-Requests".data, "1".data),
   ("sec-ch-ua".data, "\"Chromium\";v=\"127\", \"Not=A?Brand\";v=\"24\", \"Google Chrome\";v=\"127\"".data),
   ("sec-ch-ua-mobile".data, "?0".data),
   ("sec-ch-ua-platform".data, "\"Windows\"".data),
   ("Sec-Fetch-Mode".data, "navigate".data),
   ("Sec-Fetch-Dest".data, "document".data)]

/-- Models `ua = (ua.strip() or random.choice(SMART_UAS))`: the effective
user-agent, with the random fallback passed explicitly. -/
def effectiveUA (ua uaFallback : List Char) : List Char :=
  if pyStrip ua = [] then uaFallback else pyStrip ua

/-- Models `"; ".join([f"{k}={v}" for k, v in extra_cookies.items() if k and v])`. -/
def cookieStr (extra_cookies : List (List Char × List Char)) : List Char :=
  joinSemi ((extra_cookies.filter (fun p => p.1 ≠ [] && p.2 ≠ [])).map
    (fun p => p.1 ++ '=' :: p.2))

/-- Models `if referer: h["Referer"] = referer` (fresh key, so a dict append). -/
def maybeReferer (h : List (List Char × List Char)) (referer : List Char) :
    List (List Char × List Char) :=
  if referer ≠ [] then h ++ [("Referer".data, referer)] else h

/-- Models `if extra_cookies: ... if cookie_str: h["Cookie"] = cookie_str`.  (When
`extra_cookies` is empty the comprehension is empty and `cookie_str` would
be empty too, so guarding on the joined string alone is equivalent.) -/
def maybeCookie (h : List (List Char × List Char))
    (extra_cookies : List (List Char × List Char)) : List (List Char × List Char) :=
  if cookieStr extra_cookies ≠ [] then h ++ [("Cookie".data, cookieStr extra_cookies)] else h

/-- Models `_make_headers(ua, referer, site_hint, extra_cookies)` (`app.py` lines
290-315), with the sampled fallback user-agent made explicit. -/
def make_headers (ua referer site_hint : List Char)
    (extra_cookies : List (List Char × List Char)) (uaFallback : List Char) :
    List (List Char × List Char) :=
  maybeCookie
    (maybeReferer
      (baseHeaderList (effectiveUA ua uaFallback) ++ [("Sec-Fetch-Site".data, site_hint)])
      referer)
    extra_cookies

/-! ## Fetch orchestrator (`polite_get`)

The network is modelled by an oracle environment: every request that
`polite_get` can issue is answered by the environment.  `requests`
exceptions are modelled as `Except Unit`; the priming request's outcome is
such a value because the source wraps only that request in
`try/except requests.RequestException: pass`.  The politeness sleeps and
header construction do not influence control flow beyond what is modelled;
the trace records every request in order. -/

/-- An HTTP response as far as the orchestrator inspects it. -/
structure Resp where
  status : Int
  text : String
deriving DecidableEq, Repr

/-- Models `requests.Response.ok`: true unless `raise_for_status` would raise,
i.e. unless the status is in `[400, 600)`. -/
def respOk (r : Resp) : Bool := !(400 ≤ r.status && r.status < 600)

/-- The user-agent pools (`app.py` lines 190-198). -/
def BROWSER_UAS : List String :=
  ["Mozilla/5.0 (Windows NT 10.0; Win64; x64) AppleWebKit/537.36 (KHTML, like Gecko) Chrome/127.0.0.0 Safari/537.36",
   "Mozilla/5.0 (Windows NT 10.0; Win64; x64; rv:127.0) Gecko/20100101 Firefox/127.0",
   "Mozilla/5.0 (Macintosh; Intel Mac OS X 14_4) AppleWebKit/605.1.15 (KHTML, like Gecko) Version/17.5 Safari/605.1.15"]

/-- Constant `SMART_REFERERS` (`app.py` line 195). -/
def SMART_REFERERS : List String :=
  ["", "{origin}", "https://www.google.com/", "https://www.bing.com/"]

/-- Constant `SMART_UAS` (`app.py` lines 196-198). -/
def SMART_UAS : List String :=
  BROWSER_UAS ++
    ["Mozilla/5.0 (Windows NT 10.0; Win64; x64) AppleWebKit/537.36 (KHTML, like Gecko) Chrome/124.0.0.0 Safari/537.36"]

/-- Models `f"..."` of scheme and netloc: computes the origin computed via
`urllib.parse.urlparse` for well-formed absolute URLs (scheme before the
first `://`, netloc up to the next `/`, `?` or `#`). -/
def breakOnSepPair : List Char → Option (List Char × List Char)
  | [] => none
  | c :: rest =>
    if c = ':' ∧ rest.take 2 = ['/', '/'] then some ([], rest.drop 2)
    else
      match breakOnSepPair rest with
      | some (a, b) => some (c :: a, b)
      | none => none

def origin_of (url : String) : String :=
  match breakOnSepPair url.data with
  | some (sch, rest) =>
    ⟨sch ++ ':' :: '/' :: '/' ::
      rest.takeWhile (fun c => !(c = '/' || c = '?' || c = '#'))⟩
  | none => ⟨[':', '/', '/']⟩

/-- The enhanced backends of the aggressive tier, in source order. -/
inductive Backend where
  | cloudscraper
  | httpxClient
  | curlCffi
deriving DecidableEq, Repr

/-- One recorded request of a fetch call. -/
inductive Ev where
  | prime (target : String)
  | baseline (url : String)
  | rotate (ua ref : String)
  | enhanced (b : Backend)
deriving DecidableEq, Repr

/-- Availability flags and oracle outcomes for the three optional backends
(`CLOUDSCRAPER_OK` / `HTTPX_OK` / `CURLCFFI_OK` and the responses their
`get` calls would produce; `.error` models a raised exception, swallowed by
the enclosing `try/except`). -/
structure EnhCfg where
  cloudOk : Bool
  httpxOk : Bool
  curlOk : Bool
  cloudResp : Except Unit Resp
  httpxResp : Except Unit Resp
  curlResp : Except Unit Resp

/-- The oracle for one `polite_get` call: the priming outcome, the baseline
response, the response to each rotation request (keyed by the (user-agent,
referer-candidate) pair of its headers), the list that
`random.sample(SMART_UAS, k=min(len(SMART_UAS), 5))` returned, and the
enhanced-backend configuration. -/
structure Env where
  primeOutcome : Except Unit Resp
  base : Resp
  rot : String → String → Resp
  uas : List String
  enh : EnhCfg

/-- The success test of the rotation loop (`app.py` line 367):
`r.status_code not in (401, 403, 429) and r.ok and not _looks_blocked(...)`. -/
def rotGood (r : Resp) : Bool :=
  !(r.status = 401 || r.status = 403 || r.status = 429) && respOk r &&
    !looksBlocked r.text r.status

/-- Inner loop of the Rotating tier: `for ref in SMART_REFERERS`. -/
def rotRefLoop (rot : String → String → Resp) (ua : String) :
    List String → List (String × String) × Option Resp
  | [] => ([], none)
  | ref :: rest =>
    let r := rot ua ref
    if rotGood r then ([(ua, ref)], some r)
    else
      let (tr, res) := rotRefLoop rot ua rest
      ((ua, ref) :: tr, res)

/-- Outer loop of the Rotating tier: `for try_ua in random.sample(...)`. -/
def rotUALoop (rot : String → String → Resp) :
    List String → List (String × String) × Option Resp
  | [] => ([], none)
  | ua :: rest =>
    match rotRefLoop rot ua SMART_REFERERS with
    | (tr, some r) => (tr, some r)
    | (tr, none) =>
      let (tr2, res2) := rotUALoop rot rest
      (tr ++ tr2, res2)

/-- One enhanced-backend block: guarded by its availability flag; a raised
exception is swallowed; a response is accepted only with status in
`[200, 400)`. -/
def enhancedStep (flag : Bool) (b : Backend) (out : Except Unit Resp) :
    List Ev × Option Resp :=
  if flag then
    ([Ev.enhanced b],
      match out with
      | Except.error _ => none
      | Except.ok r => if 200 ≤ r.status && r.status < 400 then some r else none)
  else ([], none)

/-- The request/response part of `app.py`'s `polite_get` (lines 331-412),
after the initial politeness sleep: returns the chronological request trace
and the returned response. -/
def polite_get_run (url user_agent : String) (referer : String)
    (prime_cookies : Bool) (cookies_raw : String) (aggressive : Bool)
    (env : Env) : List Ev × Resp :=
  let origin := origin_of url
  -- priming: issued iff prime_cookies; outcome discarded (try/except pass)
  let primeEvs := if prime_cookies then [Ev.prime origin] else []
  let resp := env.base
  let baseEvs := primeEvs ++ [Ev.baseline url]
  if !(resp.status = 401 || resp.status = 403 || resp.status = 429) then
    (baseEvs, resp)
  else
    match rotUALoop env.rot env.uas with
    | (tr, some r) => (baseEvs ++ tr.map (fun p => Ev.rotate p.1 p.2), r)
    | (tr, none) =>
      let rotEvs := tr.map (fun p => Ev.rotate p.1 p.2)
      if !aggressive then (baseEvs ++ rotEvs, resp)
      else
        let s1 := enhancedStep env.enh.cloudOk Backend.cloudscraper env.enh.cloudResp
        match s1.2 with
        | some r => (baseEvs ++ rotEvs ++ s1.1, r)
        | none =>
          let s2 := enhancedStep env.enh.httpxOk Backend.httpxClient env.enh.httpxResp
          match s2.2 with
          | some r => (baseEvs ++ rotEvs ++ s1.1 ++ s2.1, r)
          | none =>
            let s3 := enhancedStep env.enh.curlOk Backend.curlCffi env.enh.curlResp
            match s3.2 with
            | some r => (baseEvs ++ rotEvs ++ s1.1 ++ s2.1 ++ s3.1, r)
            | none => (baseEvs ++ rotEvs ++ s1.1 ++ s2.1 ++ s3.1, resp)

/-- Models `polite_get` of `app.py` (lines 327-412).  Returns the politeness pause
passed to `time.sleep` (`max(0.0, delay)`), the request trace, and the
returned response. -/
def polite_get (url user_agent : String) (delay : ℚ) (referer : String)
    (prime_cookies : Bool) (cookies_raw : String) (aggressive : Bool)
    (env : Env) : ℚ × List Ev × Resp :=
  (max 0 delay, polite_get_run url user_agent referer prime_cookies cookies_raw aggressive env)

/-- Oracle for one `death.py` `polite_get` call: priming outcome and the
three possible main-request responses. -/
structure DEnv where
  primeOutcome : Except Unit Resp
  resp1 : Resp
  resp2 : Resp
  resp3 : Resp

/-- The request/response part of `death.py`'s `polite_get` (lines 244-269):
one attempt, then up to two retries, each only when the previous attempt
returned 403. -/
def death_polite_get_run (url user_agent : String) (referer : String)
    (prime_cookies : Bool) (env : DEnv) : List Ev × Resp :=
  let origin := origin_of url
  let primeEvs := if prime_cookies then [Ev.prime origin] else []
  let r1 := env.resp1
  if r1.status = 403 then
    let r2 := env.resp2
    if r2.status = 403 then
      (primeEvs ++ [Ev.baseline url, Ev.baseline url, Ev.baseline url], env.resp3)
    else (primeEvs ++ [Ev.baseline url, Ev.baseline url], r2)
  else (primeEvs ++ [Ev.baseline url], r1)

/-- Models `polite_get` of `death.py`, with the politeness pause made explicit. -/
def death_polite_get (url user_agent : String) (delay : ℚ) (referer : String)
    (prime_cookies : Bool) (env : DEnv) : ℚ × List Ev × Resp :=
  (max 0 delay, death_polite_get_run url user_agent referer prime_cookies env)

/-! ## Characterization of the Rotating tier -/

/-- The full attempt schedule of the Rotating tier: every sampled user-agent
paired with every referer candidate, in nested loop order. -/
def prodPairs (uas : List String) : List (String × String) :=
  uas.flatMap (fun u => SMART_REFERERS.map (fun r => (u, r)))

/-- Linear scan over a pair schedule, stopping at the first good response:
the normal form of the two nested rotation loops. -/
def scanFirst (rot : String → String → Resp) :
    List (String × String) → List (String × String) × Option Resp
  | [] => ([], none)
  | p :: ps =>
    if rotGood (rot p.1 p.2) then ([p], some (rot p.1 p.2))
    else
      let (tr, res) := scanFirst rot ps
      (p :: tr, res)

theorem scanFirst_append (rot : String → String → Resp) (l1 l2 : List (String × String)) :
    scanFirst rot (l1 ++ l2) =
      match scanFirst rot l1 with
      | (t, some r) => (t, some r)
      | (t, none) =>
        let (t2, r2) := scanFirst rot l2
        (t ++ t2, r2) := by
  induction l1 with
  | nil => simp [scanFirst]
  | cons p ps ih =>
    simp only [List.cons_append, scanFirst, List.append_eq]
    by_cases hg : rotGood (rot p.1 p.2) = true
    · rw [if_pos hg, if_pos hg]
    · rw [if_neg hg, if_neg hg, ih]
      cases h1 : scanFirst rot ps with
      | mk t res =>
        cases res <;> simp

theorem rotRefLoop_eq (rot : String → String → Resp) (ua : String) (refs : List String) :
    rotRefLoop rot ua refs = scanFirst rot (refs.map (fun r => (ua, r))) := by
  induction refs with
  | nil => rfl
  | cons ref rest ih =>
    simp only [rotRefLoop, List.map_cons, scanFirst, ih]

theorem rotUALoop_eq (rot : String → String → Resp) (uas : List String) :
    rotUALoop rot uas = scanFirst rot (prodPairs uas) := by
  induction uas with
  | nil => rfl
  | cons ua rest ih =>
    show (match rotRefLoop rot ua SMART_REFERERS with
      | (tr, some r) => (tr, some r)
      | (tr, none) =>
        let (tr2, res2) := rotUALoop rot rest
        (tr ++ tr2, res2)) = _
    rw [rotRefLoop_eq, ih]
    have hpp : prodPairs (ua :: rest) =
        SMART_REFERERS.map (fun r => (ua, r)) ++ prodPairs rest := by
      simp [prodPairs]
    rw [hpp, scanFirst_append]

/-- The scan visits a prefix of the schedule. -/
theorem scanFirst_front (rot : String → String → Resp) (l : List (String × String)) :
    (scanFirst rot l).1 <+: l := by
  induction l with
  | nil => exact List.nil_prefix
  | cons p ps ih =>
    simp only [scanFirst]
    by_cases hg : rotGood (rot p.1 p.2) = true
    · rw [if_pos hg]
      exact ⟨ps, rfl⟩
    · rw [if_neg hg]
      obtain ⟨q, hq⟩ := ih
      exact ⟨q, by rw [List.cons_append, hq]⟩

/-- The scan's result is the first good element of the schedule. -/
theorem scanFirst_res (rot : String → String → Resp) (l : List (String × String)) :
    (scanFirst rot l).2 =
      (l.find? (fun p => rotGood (rot p.1 p.2))).map (fun p => rot p.1 p.2) := by
  induction l with
  | nil => rfl
  | cons p ps ih =>
    simp only [scanFirst]
    by_cases hg : rotGood (rot p.1 p.2) = true
    · rw [if_pos hg,
        @List.find?_cons_of_pos _ (fun q : String × String => rotGood (rot q.1 q.2)) p ps hg]
      rfl
    · rw [if_neg hg,
        @List.find?_cons_of_neg _ (fun q : String × String => rotGood (rot q.1 q.2)) p ps hg]
      exact ih

theorem nodup_subset_length {l1 l2 : List String} (h1 : l1.Nodup) (h2 : l1 ⊆ l2) :
    l1.length ≤ l2.length :=
  calc l1.length = l1.toFinset.card := (List.toFinset_card_of_nodup h1).symm
    _ ≤ l2.toFinset.card := Finset.card_le_card (fun x hx => by
        rw [List.mem_toFinset] at hx ⊢
        exact h2 hx)
    _ ≤ l2.length := l2.toFinset_card_le

theorem prodPairs_fst_mem {uas : List String} {p : String × String}
    (h : p ∈ prodPairs uas) : p.1 ∈ uas := by
  unfold prodPairs at h
  rw [List.mem_flatMap] at h
  obtain ⟨u, hu, hp⟩ := h
  rw [List.mem_map] at hp
  obtain ⟨r, _, rfl⟩ := hp
  exact hu

theorem prodPairs_nodup {uas : List String} (h : uas.Nodup) : (prodPairs uas).Nodup := by
  induction uas with
  | nil => exact List.nodup_nil
  | cons u rest ih =>
    have hpp : prodPairs (u :: rest) =
        SMART_REFERERS.map (fun r => (u, r)) ++ prodPairs rest := by
      simp [prodPairs]
    rw [hpp, List.nodup_append]
    obtain ⟨hu, hrest⟩ := List.nodup_cons.mp h
    refine ⟨?_, ih hrest, ?_⟩
    · apply List.Nodup.map
      · intro a b hab
        exact (Prod.mk.injEq u a u b).mp hab |>.2
      · decide
    · intro p hp hq
      rw [List.mem_map] at hp
      obtain ⟨r, _, rfl⟩ := hp
      exact hu (prodPairs_fst_mem hq)

/-- The trio check of `_looks_blocked` is subsumed by the classifier itself,
so the loop's stop condition reduces to "HTTP-successful and clean". -/
theorem rotGood_eq (r : Resp) :
    rotGood r = (respOk r && !looksBlocked r.text r.status) := by
  unfold rotGood
  by_cases h : (r.status = 401 || r.status = 403 || r.status = 429) = true
  · have hb : looksBlocked r.text r.status = true := by
      unfold looksBlocked
      rw [if_pos h]
    rw [h, hb]
    simp
  · rw [Bool.eq_false_iff.mpr h]
    simp

/-! ## Dictionary semantics of the cookie jar -/

theorem dictGet_cons (a : List Char × List Char) (rest : List (List Char × List Char))
    (k' : List Char) :
    dictGet (a :: rest) k' = if a.1 = k' then some a.2 else dictGet rest k' := by
  unfold dictGet
  by_cases h : a.1 = k'
  · rw [if_pos h,
      @List.find?_cons_of_pos _ (fun p : List Char × List Char => p.1 = k') a rest (by simp [h])]
    rfl
  · rw [if_neg h,
      @List.find?_cons_of_neg _ (fun p : List Char × List Char => p.1 = k') a rest (by simp [h])]

theorem dictSet_cons_ne {a : List Char × List Char} {rest : List (List Char × List Char)}
    {k v : List Char} (ha : a.1 ≠ k) :
    dictSet (a :: rest) k v = a :: dictSet rest k v := by
  unfold dictSet
  have hhd : (decide (a.1 = k)) = false := by simp [ha]
  by_cases hr : rest.any (fun p => decide (p.1 = k)) = true
  · rw [if_pos (by simp [List.any_cons, hhd, hr]), if_pos hr]
    simp [ha]
  · rw [if_neg (by simp [List.any_cons, hhd]; simpa using hr), if_neg hr]
    simp

theorem dictGet_dictSet (d : List (List Char × List Char)) (k v k' : List Char) :
    dictGet (dictSet d k v) k' = if k' = k then some v else dictGet d k' := by
  induction d with
  | nil =>
    show dictGet (if ([] : List (List Char × List Char)).any (fun p => p.1 = k) then _
      else [] ++ [(k, v)]) k' = _
    rw [if_neg (by simp), List.nil_append, dictGet_cons]
    by_cases hk : k' = k
    · rw [if_pos (by rw [hk]), if_pos hk]
    · rw [if_neg (fun he => hk he.symm), if_neg hk]
  | cons a rest ih =>
    by_cases ha : a.1 = k
    · have hany : (a :: rest).any (fun p => decide (p.1 = k)) = true := by
        simp [List.any_cons, ha]
      show dictGet (if (a :: rest).any (fun p => p.1 = k) then
          (a :: rest).map (fun p => if p.1 = k then (k, v) else p)
        else (a :: rest) ++ [(k, v)]) k' = _
      rw [if_pos hany]
      simp only [List.map_cons, if_pos ha]
      rw [dictGet_cons]
      by_cases hk : k' = k
      · rw [if_pos (by rw [hk]), if_pos hk]
      · rw [if_neg (fun he => hk he.symm), if_neg hk, dictGet_cons,
          if_neg (fun he => hk (ha ▸ he).symm)]
        clear hany ih
        induction rest with
        | nil => rfl
        | cons b bs ihb =>
          simp only [List.map_cons]
          rw [dictGet_cons, dictGet_cons]
          by_cases hb : b.1 = k
          · rw [if_pos hb]
            rw [if_neg (show ¬((k, v) : List Char × List Char).1 = k' from
                fun he => hk he.symm),
              if_neg (show ¬b.1 = k' from by rw [hb]; exact fun he => hk he.symm), ihb]
          · rw [if_neg hb]
            by_cases hbk : b.1 = k'
            · rw [if_pos hbk, if_pos hbk]
            · rw [if_neg hbk, if_neg hbk, ihb]
    · rw [dictSet_cons_ne ha, dictGet_cons, dictGet_cons]
      by_cases hak : a.1 = k'
      · rw [if_pos hak, if_neg (show ¬k' = k from fun he => ha (hak.trans he)), if_pos hak]
      · rw [if_neg hak, if_neg hak, ih]

/-- The contribution of one `;`-fragment to key `k`: nothing when the
fragment has no `=` or its stripped key differs from `k`, otherwise the
stripped value. -/
def cookiePick (k part : List Char) : Option (List Char) :=
  match splitFirstEq part with
  | none => none
  | some (k4, v4) => if pyStrip k4 = k then some (pyStrip v4) else none

/-- All values contributed to key `k` by the fragments of `raw`, in
fragment order. -/
def cookieVals (raw k : List Char) : List (List Char) :=
  (splitChar ';' raw).filterMap (cookiePick k)

theorem getLast?_cons_of_some {α : Type} {l : List α} {a w : α} (h : l.getLast? = some w) :
    (a :: l).getLast? = some w := by
  have hne : l ≠ [] := by
    intro he
    rw [he] at h
    cases h
  rw [show a :: l = [a] ++ l from rfl, List.getLast?_append_of_ne_nil [a] hne]
  exact h

theorem cookieFold_get (k : List Char) (hk : k ≠ []) (parts : List (List Char)) :
    ∀ jar, dictGet (parts.foldl cookieStep jar) k =
      ((parts.filterMap (cookiePick k)).getLast?).elim (dictGet jar k) some := by
  induction parts with
  | nil => intro jar; rfl
  | cons part ps ih =>
    intro jar
    rw [List.foldl_cons, List.filterMap_cons, ih (cookieStep jar part)]
    cases hsp : splitFirstEq part with
    | none =>
      have hpick : cookiePick k part = none := by unfold cookiePick; rw [hsp]
      have hstep : cookieStep jar part = jar := by unfold cookieStep; rw [hsp]
      rw [hpick, hstep]
    | some kv =>
      obtain ⟨k4, v4⟩ := kv
      have hpick : cookiePick k part =
          (if pyStrip k4 = k then some (pyStrip v4) else none) := by
        unfold cookiePick
        rw [hsp]
      have hstep : cookieStep jar part =
          (if pyStrip k4 ≠ [] then dictSet jar (pyStrip k4) (pyStrip v4) else jar) := by
        unfold cookieStep
        rw [hsp]
      by_cases hks : pyStrip k4 = k
      · have hkne : pyStrip k4 ≠ [] := by rw [hks]; exact hk
        rw [hpick, if_pos hks, hstep, if_pos hkne, hks]
        have hdg : dictGet (dictSet jar k (pyStrip v4)) k = some (pyStrip v4) := by
          rw [dictGet_dictSet, if_pos rfl]
        rw [hdg]
        cases hlast : (ps.filterMap (cookiePick k)).getLast? with
        | some w =>
          rw [getLast?_cons_of_some hlast]
          rfl
        | none =>
          have he : ps.filterMap (cookiePick k) = [] := by
            rcases hx : ps.filterMap (cookiePick k) with _ | ⟨x, xs⟩
            · rfl
            · rw [hx] at hlast
              simp [List.getLast?] at hlast
          rw [he]
          rfl
      · rw [hpick, if_neg hks]
        have hsame : dictGet (cookieStep jar part) k = dictGet jar k := by
          rw [hstep]
          by_cases hne : pyStrip k4 ≠ []
          · rw [if_pos hne, dictGet_dictSet, if_neg (fun he => hks he.symm)]
          · rw [if_neg hne]
        rw [hsame]

/-- Main characterization of `_parse_cookies`: looking up a (nonempty) key
in the parsed jar yields the *last* stripped value among the `=`-carrying,
key-matching fragments, and nothing when no fragment matches. -/
theorem parse_cookies_get (raw k : List Char) (hk : k ≠ []) :
    dictGet (parse_cookies raw) k = (cookieVals raw k).getLast? := by
  unfold parse_cookies cookieVals
  rw [cookieFold_get k hk _ []]
  cases hlast : ((splitChar ';' raw).filterMap (cookiePick k)).getLast? <;> rfl

theorem joinSemi_cons_ne_nil {l0 : List Char} (ltail : List (List Char)) (h : l0 ≠ []) :
    joinSemi (l0 :: ltail) ≠ [] := by
  cases ltail with
  | nil => exact h
  | cons y t =>
    show l0 ++ ';' :: ' ' :: joinSemi (y :: t) ≠ []
    cases l0 with
    | nil => simp
    | cons c cs => simp

/-- The Cookie header of `_make_headers`: present exactly when some cookie
entry has both a nonempty key and a nonempty value, and in that case it is
the `"; "`-join of the qualifying `k=v` pairs, in order. -/
theorem make_headers_cookie (ua referer site_hint : List Char)
    (extra_cookies : List (List Char × List Char)) (uaFallback : List Char) :
    dictGet (make_headers ua referer site_hint extra_cookies uaFallback) ("Cookie".data) =
      (if extra_cookies.filter (fun p => p.1 ≠ [] && p.2 ≠ []) = [] then none
       else some (cookieStr extra_cookies)) := by
  unfold make_headers maybeCookie
  cases hq : extra_cookies.filter (fun p => p.1 ≠ [] && p.2 ≠ []) with
  | nil =>
    have hcs : cookieStr extra_cookies = [] := by
      unfold cookieStr
      rw [hq]
      rfl
    rw [if_neg (by rw [hcs]; exact fun hcon => hcon rfl), if_pos rfl]
    unfold maybeReferer
    by_cases hr : referer ≠ []
    · rw [if_pos hr]
      unfold effectiveUA
      by_cases hu : pyStrip ua = []
      · rw [if_pos hu]
        rfl
      · rw [if_neg hu]
        rfl
    · rw [if_neg hr]
      unfold effectiveUA
      by_cases hu : pyStrip ua = []
      · rw [if_pos hu]
        rfl
      · rw [if_neg hu]
        rfl
  | cons q0 qtail =>
    have hq0 : q0.1 ≠ [] := by
      have hm : q0 ∈ extra_cookies.filter (fun p => p.1 ≠ [] && p.2 ≠ []) := by
        rw [hq]
        exact List.mem_cons_self q0 qtail
      have hmem := List.of_mem_filter hm
      simp only [Bool.and_eq_true, decide_eq_true_eq] at hmem
      exact hmem.1
    have hjoin : cookieStr extra_cookies ≠ [] := by
      unfold cookieStr
      rw [hq, List.map_cons]
      apply joinSemi_cons_ne_nil
      cases h0 : q0.1 with
      | nil => exact absurd h0 hq0
      | cons c cs => simp
    rw [if_pos hjoin, if_neg (List.cons_ne_nil q0 qtail)]
    unfold maybeReferer
    by_cases hr : referer ≠ []
    · rw [if_pos hr]
      unfold effectiveUA
      by_cases hu : pyStrip ua = []
      · rw [if_pos hu]
        rfl
      · rw [if_neg hu]
        rfl
    · rw [if_neg hr]
      unfold effectiveUA
      by_cases hu : pyStrip ua = []
      · rw [if_pos hu]
        rfl
      · rw [if_neg hu]
        rfl

/-! ## Trace structure of `polite_get` -/

def isPrimeEv : Ev → Bool
  | Ev.prime _ => true
  | _ => false

def isRotateEv : Ev → Bool
  | Ev.rotate _ _ => true
  | _ => false

def isEnhancedEv : Ev → Bool
  | Ev.enhanced _ => true
  | _ => false

theorem rotMap_not_prime {l : List (String × String)} :
    ∀ e ∈ l.map (fun p => Ev.rotate p.1 p.2), isPrimeEv e = false := by
  intro e he
  rw [List.mem_map] at he
  obtain ⟨p, _, rfl⟩ := he
  rfl

theorem rotMap_not_enhanced {l : List (String × String)} :
    ∀ e ∈ l.map (fun p => Ev.rotate p.1 p.2), isEnhancedEv e = false := by
  intro e he
  rw [List.mem_map] at he
  obtain ⟨p, _, rfl⟩ := he
  rfl

theorem enhStep_not_prime {f : Bool} {b : Backend} {o : Except Unit Resp} :
    ∀ e ∈ (enhancedStep f b o).1, isPrimeEv e = false := by
  intro e he
  unfold enhancedStep at he
  by_cases hf : f = true
  · rw [if_pos hf] at he
    rcases List.mem_cons.mp he with he | he
    · subst he; rfl
    · cases he
  · rw [if_neg hf] at he
    cases he

/-- Every trace of `polite_get_run` starts with the optional priming
request and the baseline request, and the remainder contains no further
priming request, nor (when `aggressive` is false) any enhanced-backend
request. -/
theorem polite_get_run_trace (url user_agent referer : String) (prime_cookies : Bool)
    (cookies_raw : String) (aggressive : Bool) (env : Env) :
    ∃ tail,
      (polite_get_run url user_agent referer prime_cookies cookies_raw aggressive env).1 =
        (if prime_cookies then [Ev.prime (origin_of url)] else []) ++ Ev.baseline url :: tail ∧
      (∀ e ∈ tail, isPrimeEv e = false) ∧
      (aggressive = false → ∀ e ∈ tail, isEnhancedEv e = false) := by
  unfold polite_get_run
  by_cases hb : (!(env.base.status = 401 || env.base.status = 403 || env.base.status = 429)) = true
  · refine ⟨[], ?_, ?_, ?_⟩
    · simp [hb]
    · intro e he; cases he
    · intro _ e he; cases he
  · cases hrot : rotUALoop env.rot env.uas with
    | mk tr res =>
      cases res with
      | some r =>
        refine ⟨tr.map (fun p => Ev.rotate p.1 p.2), ?_, rotMap_not_prime,
          fun _ => rotMap_not_enhanced⟩
        simp [hb, hrot]
      | none =>
        by_cases hagg : aggressive = true
        · cases h1 : (enhancedStep env.enh.cloudOk Backend.cloudscraper env.enh.cloudResp).2 with
          | some r =>
            refine ⟨tr.map (fun p => Ev.rotate p.1 p.2) ++
              (enhancedStep env.enh.cloudOk Backend.cloudscraper env.enh.cloudResp).1,
              ?_, ?_, ?_⟩
            · simp [hb, hrot, hagg, h1]
            · intro e he
              rcases List.mem_append.mp he with he | he
              · exact rotMap_not_prime e he
              · exact enhStep_not_prime e he
            · intro hfalse
              rw [hagg] at hfalse
              cases hfalse
          | none =>
            cases h2 : (enhancedStep env.enh.httpxOk Backend.httpxClient env.enh.httpxResp).2 with
            | some r =>
              refine ⟨tr.map (fun p => Ev.rotate p.1 p.2) ++
                (enhancedStep env.enh.cloudOk Backend.cloudscraper env.enh.cloudResp).1 ++
                (enhancedStep env.enh.httpxOk Backend.httpxClient env.enh.httpxResp).1,
                ?_, ?_, ?_⟩
              · simp [hb, hrot, hagg, h1, h2]
              · intro e he
                rcases List.mem_append.mp he with he | he
                · rcases List.mem_append.mp he with he | he
                  · exact rotMap_not_prime e he
                  · exact enhStep_not_prime e he
                · exact enhStep_not_prime e he
              · intro hfalse
                rw [hagg] at hfalse
                cases hfalse
            | none =>
              cases h3 : (enhancedStep env.enh.curlOk Backend.curlCffi env.enh.curlResp).2 with
              | some r =>
                refine ⟨tr.map (fun p => Ev.rotate p.1 p.2) ++
                  (enhancedStep env.enh.cloudOk Backend.cloudscraper env.enh.cloudResp).1 ++
                  (enhancedStep env.enh.httpxOk Backend.httpxClient env.enh.httpxResp).1 ++
                  (enhancedStep env.enh.curlOk Backend.curlCffi env.enh.curlResp).1,
                  ?_, ?_, ?_⟩
                · simp [hb, hrot, hagg, h1, h2, h3]
                · intro e he
                  rcases List.mem_append.mp he with he | he
                  · rcases List.mem_append.mp he with he | he
                    · rcases List.mem_append.mp he with he | he
                      · exact rotMap_not_prime e he
                      · exact enhStep_not_prime e he
                    · exact enhStep_not_prime e he
                  · exact enhStep_not_prime e he
                · intro hfalse
                  rw [hagg] at hfalse
                  cases hfalse
              | none =>
                refine ⟨tr.map (fun p => Ev.rotate p.1 p.2) ++
                  (enhancedStep env.enh.cloudOk Backend.cloudscraper env.enh.cloudResp).1 ++
                  (enhancedStep env.enh.httpxOk Backend.httpxClient env.enh.httpxResp).1 ++
                  (enhancedStep env.enh.curlOk Backend.curlCffi env.enh.curlResp).1,
                  ?_, ?_, ?_⟩
                · simp [hb, hrot, hagg, h1, h2, h3]
                · intro e he
                  rcases List.mem_append.mp he with he | he
                  · rcases List.mem_append.mp he with he | he
                    · rcases List.mem_append.mp he with he | he
                      · exact rotMap_not_prime e he
                      · exact enhStep_not_prime e he
                    · exact enhStep_not_prime e he
                  · exact enhStep_not_prime e he
                · intro hfalse
                  rw [hagg] at hfalse
                  cases hfalse
        · have haggF : aggressive = false := by
            cases aggressive
            · rfl
            · exact absurd rfl hagg
          refine ⟨tr.map (fun p => Ev.rotate p.1 p.2), ?_, rotMap_not_prime,
            fun _ => rotMap_not_enhanced⟩
          simp [hb, hrot, haggF]

/-! ## Concrete test fixtures -/

/-- A soft-blocked response: HTTP 200 whose body carries the `/captcha`
marker. -/
def respCaptcha : Resp := ⟨200, "please complete the /captcha challenge to continue"⟩

/-- A hard-blocked response. -/
def respForbidden : Resp := ⟨403, "Access Denied"⟩

/-- A harmless response. -/
def respOkSmall : Resp := ⟨200, "ok"⟩

/-- Environment whose baseline answer is the soft block `respCaptcha` and
whose rotation answers are all hard blocks. -/
def envSoft : Env :=
  ⟨Except.ok respOkSmall, respCaptcha, fun _ _ => respForbidden, SMART_UAS,
    ⟨false, false, false, Except.ok respOkSmall, Except.ok respOkSmall, Except.ok respOkSmall⟩⟩

/-- Environment where every answer is a hard block. -/
def envAllBlocked : Env :=
  ⟨Except.ok respOkSmall, respForbidden, fun _ _ => respForbidden, SMART_UAS,
    ⟨false, false, false, Except.ok respOkSmall, Except.ok respOkSmall, Except.ok respOkSmall⟩⟩

/-- A `death.py` environment: first attempt 403, retry clean. -/
def denvRetry : DEnv := ⟨Except.ok respOkSmall, respForbidden, respOkSmall, respOkSmall⟩

/-- Absence of every `_looks_blocked` marker in the (lower-cased) body. -/
def noMarkers (text : String) : Prop :=
  blocked_markers.all (fun m => !subIn m.data (lowStr text.data)) = true

theorem pyStrip_length_le (l : List Char) : (pyStrip l).length ≤ l.length := by
  unfold pyStrip
  rw [List.length_reverse]
  calc ((l.dropWhile pySpace).reverse.dropWhile pySpace).length
      ≤ (l.dropWhile pySpace).reverse.length :=
        (List.dropWhile_suffix pySpace).sublist.length_le
    _ = (l.dropWhile pySpace).length := List.length_reverse _
    _ ≤ l.length := (List.dropWhile_suffix pySpace).sublist.length_le

/-- Outside the immediate-status set and in the absence of markers, the
classifier's verdict is exactly the size heuristic: short trimmed body AND
error-range status. -/
theorem looksBlocked_eval (text : String) (status : Int)
    (hns : ¬(status = 401 ∨ status = 403 ∨ status = 429)) (hm : noMarkers text) :
    looksBlocked text status =
      ((pyStrip (lowStr text.data)).length < 400 && (400 ≤ status && status < 600)) := by
  unfold looksBlocked
  push_neg at hns
  rw [if_neg (by simp [hns.1, hns.2.1, hns.2.2])]
  have hany : blocked_markers.any (fun m => subIn m.data (lowStr text.data)) = false := by
    unfold noMarkers at hm
    rw [List.all_eq_true] at hm
    rw [List.any_eq_false]
    intro m hmem
    have := hm m hmem
    simp only [Bool.not_eq_true'] at this
    simp [this]
  rw [if_neg (by simp [hany])]
  by_cases hc : ((pyStrip (lowStr text.data)).length < 400 && (400 ≤ status && status < 600)) = true
  · rw [if_pos hc, hc]
  · rw [if_neg hc, Bool.eq_false_iff.mpr hc]

/-! ## Claims -/

/-- Claim C1, counterexample.  A Baseline response with HTTP status 200
whose body contains the `/captcha` marker is judged blocked by the Block
Classifier, yet `polite_get` returns it directly: the trace contains no
rotation request at all, refuting the claim that such soft blocks proceed
to the Rotating tier. -/
theorem claimC1_counterexample :
    looksBlocked respCaptcha.text respCaptcha.status = true ∧
    respCaptcha.status = 200 ∧
    (polite_get "https://example.com" "" 1 "" false "" false envSoft).2.2 = respCaptcha ∧
    (polite_get "https://example.com" "" 1 "" false "" false envSoft).2.1.countP isRotateEv
      = 0 := by
  refine ⟨by decide, by decide, by decide, by decide⟩

/-- Claim C1, amended.  Whenever the Baseline response's status is not in
{401, 403, 429} — in particular for every marker- or size-based soft block
on such a status — `polite_get` (`app.py`) returns the baseline response
immediately: no Rotating-tier request and no enhanced-backend request is
ever issued.  Identity rotation happens only for the three hard-block
statuses. -/
theorem claimC1_theorem (url user_agent : String) (delay : ℚ) (referer : String)
    (prime_cookies : Bool) (cookies_raw : String) (aggressive : Bool) (env : Env)
    (hblocked : looksBlocked env.base.text env.base.status = true)
    (h1 : env.base.status ≠ 401) (h2 : env.base.status ≠ 403) (h3 : env.base.status ≠ 429) :
    (polite_get url user_agent delay referer prime_cookies cookies_raw aggressive env).2.2
      = env.base ∧
    (polite_get url user_agent delay referer prime_cookies cookies_raw aggressive
      env).2.1.countP isRotateEv = 0 ∧
    (polite_get url user_agent delay referer prime_cookies cookies_raw aggressive
      env).2.1.countP isEnhancedEv = 0 := by
  have hcond : (!(env.base.status = 401 || env.base.status = 403 || env.base.status = 429))
      = true := by
    simp [h1, h2, h3]
  have hrun : (polite_get url user_agent delay referer prime_cookies cookies_raw aggressive
      env).2 = polite_get_run url user_agent referer prime_cookies cookies_raw aggressive
      env := rfl
  rw [hrun]
  unfold polite_get_run
  rw [if_pos hcond]
  refine ⟨rfl, ?_, ?_⟩ <;> (cases prime_cookies <;> rfl)

/-- Claim C1, witness for the amended theorem at the concrete soft-block
environment. -/
theorem claimC1_witness :
    (polite_get "https://example.com" "" 1 "" false "" false envSoft).2.2 = envSoft.base ∧
    (polite_get "https://example.com" "" 1 "" false "" false envSoft).2.1.countP isRotateEv
      = 0 ∧
    (polite_get "https://example.com" "" 1 "" false "" false envSoft).2.1.countP isEnhancedEv
      = 0 :=
  claimC1_theorem "https://example.com" "" 1 "" false "" false envSoft
    (by decide) (by decide) (by decide) (by decide)

/-- Claim C2, counterexample.  `normalize_url("www.example.com")` keeps the
`www.` prefix: it yields `https://www.example.com`, not
`https://example.com` as the spec's test vector asserts (and
`normalize_url("http:/example.com")` likewise keeps the `http` scheme). -/
theorem claimC2_counterexample :
    normalize_url "www.example.com" ≠ "https://example.com" ∧
    normalize_url "http:/example.com" ≠ "https://example.com" := by
  refine ⟨by decide, by decide⟩

/-- Claim C2, amended.  Of the spec's five test vectors, `example.com`,
`https///example.com` and `wwwhttps://example.com` indeed normalize to
`https://example.com`, but `www.example.com` normalizes to
`https://www.example.com` and `http:/example.com` to
`http://example.com`. -/
theorem claimC2_theorem :
    normalize_url "example.com" = "https://example.com" ∧
    normalize_url "www.example.com" = "https://www.example.com" ∧
    normalize_url "http:/example.com" = "http://example.com" ∧
    normalize_url "https///example.com" = "https://example.com" ∧
    normalize_url "wwwhttps://example.com" = "https://example.com" := by
  refine ⟨by decide, by decide, by decide, by decide, by decide⟩

/-- Claim C3, counterexample.  The marker list contains `"/captcha"`, not
`"captcha"`: a status-200 body containing the word `captcha` (without the
leading slash) is classified clean, refuting the claim. -/
theorem claimC3_counterexample :
    subIn "captcha".data (lowStr "Please solve the captcha to continue".data) = true ∧
    looksBlocked "Please solve the captcha to continue" 200 = false := by
  refine ⟨by decide, by decide⟩

/-- Claim C3, amended.  For every response with status 200 whose
(lower-cased) body contains the substring `/captcha`, the Block Classifier
returns blocked via the marker rule. -/
theorem claimC3_theorem (text : String)
    (h : subIn "/captcha".data (lowStr text.data) = true) :
    looksBlocked text 200 = true := by
  unfold looksBlocked
  rw [if_neg (by decide)]
  have hany : blocked_markers.any (fun m => subIn m.data (lowStr text.data)) = true := by
    rw [List.any_eq_true]
    exact ⟨"/captcha", by decide, h⟩
  rw [if_pos hany]

/-- Claim C3, witness: a concrete status-200 body containing `/captcha` is
judged blocked. -/
theorem claimC3_witness : looksBlocked "please visit /captcha to proceed" 200 = true :=
  claimC3_theorem "please visit /captcha to proceed" (by decide)

/-- Claim C4 (confirmed).  URL normalization is idempotent:
`normalize_url (normalize_url x) = normalize_url x` for every string. -/
theorem claimC4_theorem (u : String) :
    normalize_url (normalize_url u) = normalize_url u :=
  congrArg String.mk (normChars_idem u.data)

/-- The discipline of the Rotating tier asserted by claim C5, for a given
rotation oracle and sampled user-agent list: at most 5 distinct user-agents
appear in the trace; no (user-agent, referer) pair is requested twice; the
trace is a prefix of the nested schedule "for each sampled user-agent, every
referer candidate in order" (so a user-agent's referer candidates are
exhausted before the next user-agent starts); and the loop's result is the
first response of the schedule that is HTTP-successful and classified
clean. -/
def RotatingDiscipline (rot : String → String → Resp) (uas : List String) : Prop :=
  ((rotUALoop rot uas).1.map Prod.fst).dedup.length ≤ 5 ∧
  (rotUALoop rot uas).1.Nodup ∧
  (rotUALoop rot uas).1 <+: prodPairs uas ∧
  (rotUALoop rot uas).2 =
    ((prodPairs uas).find? (fun p =>
      respOk (rot p.1 p.2) && !looksBlocked (rot p.1 p.2).text (rot p.1 p.2).status)).map
      (fun p => rot p.1 p.2)

/-- Claim C5 (confirmed).  For every rotation oracle and every list `uas`
that `random.sample(SMART_UAS, k=min(len(SMART_UAS), 5))` can return
(pairwise distinct, drawn from the pool, of length `min 5 |SMART_UAS|`),
the Rotating tier satisfies `RotatingDiscipline`. -/
theorem claimC5_theorem (rot : String → String → Resp) (uas : List String)
    (h1 : uas.Nodup) (h2 : ∀ u ∈ uas, u ∈ SMART_UAS)
    (h3 : uas.length = min 5 SMART_UAS.length) :
    RotatingDiscipline rot uas := by
  have htr : (rotUALoop rot uas).1 = (scanFirst rot (prodPairs uas)).1 := by
    rw [rotUALoop_eq]
  have hres : (rotUALoop rot uas).2 = (scanFirst rot (prodPairs uas)).2 := by
    rw [rotUALoop_eq]
  have hpre : (rotUALoop rot uas).1 <+: prodPairs uas := by
    rw [htr]
    exact scanFirst_front rot (prodPairs uas)
  have hlen4 : uas.length ≤ 5 := by
    rw [h3]
    exact min_le_left 5 _
  refine ⟨?_, ?_, hpre, ?_⟩
  · have hsub : ((rotUALoop rot uas).1.map Prod.fst).dedup ⊆ uas := by
      intro x hx
      have hx2 : x ∈ (rotUALoop rot uas).1.map Prod.fst := List.dedup_subset _ hx
      rw [List.mem_map] at hx2
      obtain ⟨p, hp, rfl⟩ := hx2
      exact prodPairs_fst_mem (hpre.subset hp)
    exact le_trans (nodup_subset_length (List.nodup_dedup _) hsub) hlen4
  · exact hpre.sublist.nodup (prodPairs_nodup h1)
  · rw [hres, scanFirst_res]
    have hfeq : (fun p : String × String => rotGood (rot p.1 p.2)) =
        (fun p : String × String =>
          respOk (rot p.1 p.2) && !looksBlocked (rot p.1 p.2).text (rot p.1 p.2).status) := by
      funext p
      exact rotGood_eq (rot p.1 p.2)
    rw [hfeq]

/-- Claim C5, witness: the discipline at a concrete all-blocked oracle with
the full pool as the sample. -/
theorem claimC5_witness : RotatingDiscipline (fun _ _ => respForbidden) SMART_UAS :=
  claimC5_theorem (fun _ _ => respForbidden) SMART_UAS (by decide) (by decide) (by decide)

/-- Claim C6 (confirmed).  With `aggressive = false`, no enhanced-backend
request is ever issued, whatever the environment answers — even when the
baseline and every rotation attempt are blocked. -/
theorem claimC6_theorem (url user_agent : String) (delay : ℚ) (referer : String)
    (prime_cookies : Bool) (cookies_raw : String) (env : Env) :
    (polite_get url user_agent delay referer prime_cookies cookies_raw false
      env).2.1.countP isEnhancedEv = 0 := by
  have hrun : (polite_get url user_agent delay referer prime_cookies cookies_raw false
      env).2 = polite_get_run url user_agent referer prime_cookies cookies_raw false
      env := rfl
  rw [hrun]
  obtain ⟨tail, htr, _, henh⟩ :=
    polite_get_run_trace url user_agent referer prime_cookies cookies_raw false env
  rw [htr, List.countP_append, List.countP_cons]
  have h1 : List.countP isEnhancedEv (if prime_cookies = true
      then [Ev.prime (origin_of url)] else []) = 0 := by
    cases prime_cookies <;> rfl
  have h2 : List.countP isEnhancedEv tail = 0 :=
    List.countP_eq_zero.mpr (fun e he => by simp [henh rfl e he])
  rw [h1, h2]
  rfl

/-- Claim C7 (confirmed).  The size heuristic fires only when the trimmed
body is shorter than 400 characters AND the status lies in `[400, 600)`:
absent hard-block statuses and markers the verdict equals exactly that
conjunction; a status-200 response without markers is always clean (short
body or not); and every 50-character body on status 500 is blocked. -/
theorem claimC7_theorem :
    (∀ (text : String) (status : Int), ¬(status = 401 ∨ status = 403 ∨ status = 429) →
      noMarkers text →
      looksBlocked text status =
        ((pyStrip (lowStr text.data)).length < 400 && (400 ≤ status && status < 600))) ∧
    (∀ text : String, noMarkers text → looksBlocked text 200 = false) ∧
    (∀ text : String, text.length = 50 → looksBlocked text 500 = true) := by
  refine ⟨looksBlocked_eval, ?_, ?_⟩
  · intro text hm
    rw [looksBlocked_eval text 200 (by decide) hm]
    simp
  · intro text hlen
    unfold looksBlocked
    rw [if_neg (by decide)]
    by_cases hany : blocked_markers.any (fun m => subIn m.data (lowStr text.data)) = true
    · rw [if_pos hany]
    · rw [if_neg hany]
      have hll : (lowStr text.data).length = 50 := by
        unfold lowStr
        rw [List.length_map]
        exact hlen
      have hstrip : (pyStrip (lowStr text.data)).length < 400 := by
        have := pyStrip_length_le (lowStr text.data)
        omega
      rw [if_pos (by simp [hstrip])]

/-- Claim C7, witness: a 50-character body on status 500 is blocked, and a
short marker-free body on status 200 is clean. -/
theorem claimC7_witness :
    looksBlocked "xxxxxxxxxxxxxxxxxxxxxxxxxxxxxxxxxxxxxxxxxxxxxxxxxx" 500 = true ∧
    looksBlocked "a terse page" 200 = false :=
  ⟨claimC7_theorem.2.2 "xxxxxxxxxxxxxxxxxxxxxxxxxxxxxxxxxxxxxxxxxxxxxxxxxx" (by decide),
    claimC7_theorem.2.1 "a terse page" (by unfold noMarkers; decide)⟩

/-- Claim C8 (confirmed).  With `prime_cookies` set, both orchestrators
issue exactly one priming request, addressed to the target's origin, as the
very first request; the Baseline request always follows immediately; and
the whole outcome of the call is unchanged when the priming outcome (also a
raised transport exception) is replaced by any other. -/
theorem claimC8_theorem (url user_agent : String) (delay : ℚ) (referer cookies_raw : String)
    (aggressive : Bool) (env : Env) (denv : DEnv) :
    (∃ tail, (polite_get url user_agent delay referer true cookies_raw aggressive env).2.1 =
        Ev.prime (origin_of url) :: Ev.baseline url :: tail ∧
        tail.countP isPrimeEv = 0) ∧
    (∀ o : Except Unit Resp,
      polite_get url user_agent delay referer true cookies_raw aggressive
          (Env.mk o env.base env.rot env.uas env.enh) =
        polite_get url user_agent delay referer true cookies_raw aggressive env) ∧
    (∃ tail, (death_polite_get url user_agent delay referer true denv).2.1 =
        Ev.prime (origin_of url) :: Ev.baseline url :: tail ∧
        tail.countP isPrimeEv = 0) ∧
    (∀ o : Except Unit Resp,
      death_polite_get url user_agent delay referer true
          (DEnv.mk o denv.resp1 denv.resp2 denv.resp3) =
        death_polite_get url user_agent delay referer true denv) := by
  refine ⟨?_, ?_, ?_, ?_⟩
  · obtain ⟨tail, htr, hpr, _⟩ :=
      polite_get_run_trace url user_agent referer true cookies_raw aggressive env
    refine ⟨tail, ?_, List.countP_eq_zero.mpr (fun e he => by simp [hpr e he])⟩
    have hrun : (polite_get url user_agent delay referer true cookies_raw aggressive env).2 =
        polite_get_run url user_agent referer true cookies_raw aggressive env := rfl
    rw [hrun, htr]
    rfl
  · intro o
    cases env with
    | mk po b r u e => rfl
  · have hrun : (death_polite_get url user_agent delay referer true denv).2 =
        death_polite_get_run url user_agent referer true denv := rfl
    rw [hrun]
    unfold death_polite_get_run
    by_cases hs1 : denv.resp1.status = 403
    · rw [if_pos hs1]
      by_cases hs2 : denv.resp2.status = 403
      · rw [if_pos hs2]
        exact ⟨[Ev.baseline url, Ev.baseline url], rfl, rfl⟩
      · rw [if_neg hs2]
        exact ⟨[Ev.baseline url], rfl, rfl⟩
    · rw [if_neg hs1]
      exact ⟨[], rfl, rfl⟩
  · intro o
    cases denv with
    | mk po r1 r2 r3 => rfl

/-- Claim C9 (confirmed).  The politeness pause passed to `time.sleep` is
`max(0.0, delay)` in both orchestrators, so for a negative delay it is
exactly zero — the sleep argument never goes negative and `time.sleep`
cannot raise. -/
theorem claimC9_theorem (url user_agent referer cookies_raw : String)
    (prime_cookies aggressive : Bool) (env : Env) (denv : DEnv) (delay : ℚ)
    (h : delay < 0) :
    (polite_get url user_agent delay referer prime_cookies cookies_raw aggressive env).1 =
      max 0 delay ∧
    (death_polite_get url user_agent delay referer prime_cookies denv).1 = max 0 delay ∧
    max (0 : ℚ) delay = 0 :=
  ⟨rfl, rfl, max_eq_left (le_of_lt h)⟩

/-- Claim C9, witness at a concrete negative delay. -/
theorem claimC9_witness :
    (polite_get "https://example.com" "" (-1) "" false "" false envAllBlocked).1 =
      max 0 (-1) ∧
    (death_polite_get "https://example.com" "" (-1) "" false denvRetry).1 = max 0 (-1) ∧
    max (0 : ℚ) (-1) = 0 :=
  claimC9_theorem "https://example.com" "" "" "" false false envAllBlocked denvRetry (-1)
    (by norm_num)

/-- Claim C10 (confirmed).  Cookie handling drops malformed input silently:
looking up a nonempty key in `_parse_cookies`' jar yields the last stripped
value among the `=`-carrying fragments whose stripped key matches (so
fragments without `=` are ignored, keys/values are stripped, and the last
duplicate wins); and `_make_headers` emits a Cookie header exactly when
some entry has both a nonempty key and a nonempty value, joining only the
qualifying `k=v` pairs. -/
theorem claimC10_theorem :
    (∀ (raw k : List Char), k ≠ [] →
      dictGet (parse_cookies raw) k = (cookieVals raw k).getLast?) ∧
    (∀ (ua referer site_hint : List Char) (extra_cookies : List (List Char × List Char))
      (uaFallback : List Char),
      dictGet (make_headers ua referer site_hint extra_cookies uaFallback) ("Cookie".data) =
        (if extra_cookies.filter (fun p => p.1 ≠ [] && p.2 ≠ []) = [] then none
         else some (cookieStr extra_cookies))) :=
  ⟨fun raw k hk => parse_cookies_get raw k hk, make_headers_cookie⟩

/-- Claim C10, witness: on `"a=1; junk; a = 2 ;c="` the jar's `a` entry is
the stripped last value `2`. -/
theorem claimC10_witness :
    dictGet (parse_cookies "a=1; junk; a = 2 ;c=".data) "a".data =
      (cookieVals "a=1; junk; a = 2 ;c=".data "a".data).getLast? ∧
    (cookieVals "a=1; junk; a = 2 ;c=".data "a".data).getLast? = some "2".data :=
  ⟨claimC10_theorem.1 "a=1; junk; a = 2 ;c=".data "a".data (by decide), by decide⟩

end DeathRow
